import Mathlib

/-!
Verification development for the SyncFlow data-integration service.

The Python sources under `backend/app` are shallowly embedded:

* Python scalar values are modelled by `SyncFlow.PyVal` (JSON-shaped data:
  null, bool, int, float, str, list, dict).  Python floats are shadowed by
  exact rationals; only the operations the embedded code actually performs
  on them (integrality test, comparison, decimal rendering) are modelled.
* Python dicts are association lists with distinct keys; where distinctness
  matters it appears as an explicit hypothesis.
* Third-party hash functions (xxHash128 in `bk_hash.py`, BLAKE3 in
  `data_hash.py`) and the row-version comparator's external date parser are
  not re-implemented: the embedded functions take them as parameters, so
  every theorem is universally quantified over them.
* Fallible code (Python `raise ValueError`) returns `Except String`.
-/

namespace SyncFlow

/-! ## Python value model -/

/-- A Python value as it occurs in records flowing through the pipeline
(JSON-derived data plus `None`).  Floats are shadowed by exact rationals. -/
inductive PyVal where
  | null : PyVal
  | bool : Bool → PyVal
  | int : Int → PyVal
  | float : Rat → PyVal
  | str : String → PyVal
  | list : List PyVal → PyVal
  | dict : List (String × PyVal) → PyVal
  deriving Repr

/-- A Python dict (record): association list from field name to value.
Python dicts have distinct keys; embeddings that depend on this take it as
a hypothesis. -/
abbrev PyDict := List (String × PyVal)

/-- `dict.get(k)`: first binding of `k`, if any. -/
def rowGet (r : PyDict) (k : String) : Option PyVal :=
  (r.find? (fun p => p.1 == k)).map (·.2)

/-- Python truthiness of a value (`bool(v)`). -/
def truthy : PyVal → Bool
  | .null => false
  | .bool b => b
  | .int n => n != 0
  | .float q => q != 0
  | .str s => !s.isEmpty
  | .list l => !l.isEmpty
  | .dict d => !d.isEmpty

/-- Truthiness of `dict.get(k)` (missing key counts as `None`, hence falsy). -/
def truthyGet (r : PyDict) (k : String) : Bool :=
  match rowGet r k with
  | some v => truthy v
  | none => false

/-- `dict.get(k)` with Python's `None` default: a missing key yields `None`. -/
def pyGet (r : PyDict) (k : String) : PyVal :=
  (rowGet r k).getD .null

mutual

/-- Structural equality on values.  It models Python `==` for the values the
pipeline compares (hash hex strings, row-version strings, `None`); Python's
cross-type numeric equality (`1 == 1.0`) is not modelled, as no compared
identity field is numeric. -/
def PyVal.beq : PyVal → PyVal → Bool
  | .null, .null => true
  | .bool a, .bool b => a == b
  | .int a, .int b => a == b
  | .float a, .float b => a == b
  | .str a, .str b => a == b
  | .list as, .list bs => beqList as bs
  | .dict as, .dict bs => beqDict as bs
  | _, _ => false

def beqList : List PyVal → List PyVal → Bool
  | [], [] => true
  | a :: as, b :: bs => PyVal.beq a b && beqList as bs
  | _, _ => false

def beqDict : List (String × PyVal) → List (String × PyVal) → Bool
  | [], [] => true
  | (k, a) :: as, (l, b) :: bs => k == l && PyVal.beq a b && beqDict as bs
  | _, _ => false

end

mutual

theorem PyVal.beq_iff_eq : ∀ a b : PyVal, PyVal.beq a b = true ↔ a = b
  | .null, .null => by simp [PyVal.beq]
  | .bool a, .bool b => by simp [PyVal.beq]
  | .int a, .int b => by simp [PyVal.beq]
  | .float a, .float b => by simp [PyVal.beq]
  | .str a, .str b => by simp [PyVal.beq]
  | .list as, .list bs => by
      simp only [PyVal.beq]
      rw [beqList_iff_eq as bs]
      simp
  | .dict as, .dict bs => by
      simp only [PyVal.beq]
      rw [beqDict_iff_eq as bs]
      simp
  | .null, .bool _ | .null, .int _ | .null, .float _ | .null, .str _
  | .null, .list _ | .null, .dict _ => by simp [PyVal.beq]
  | .bool _, .null | .bool _, .int _ | .bool _, .float _ | .bool _, .str _
  | .bool _, .list _ | .bool _, .dict _ => by simp [PyVal.beq]
  | .int _, .null | .int _, .bool _ | .int _, .float _ | .int _, .str _
  | .int _, .list _ | .int _, .dict _ => by simp [PyVal.beq]
  | .float _, .null | .float _, .bool _ | .float _, .int _ | .float _, .str _
  | .float _, .list _ | .float _, .dict _ => by simp [PyVal.beq]
  | .str _, .null | .str _, .bool _ | .str _, .int _ | .str _, .float _
  | .str _, .list _ | .str _, .dict _ => by simp [PyVal.beq]
  | .list _, .null | .list _, .bool _ | .list _, .int _ | .list _, .float _
  | .list _, .str _ | .list _, .dict _ => by simp [PyVal.beq]
  | .dict _, .null | .dict _, .bool _ | .dict _, .int _ | .dict _, .float _
  | .dict _, .str _ | .dict _, .list _ => by simp [PyVal.beq]

theorem beqList_iff_eq : ∀ as bs : List PyVal, beqList as bs = true ↔ as = bs
  | [], [] => by simp [beqList]
  | [], _ :: _ => by simp [beqList]
  | _ :: _, [] => by simp [beqList]
  | a :: as, b :: bs => by
      simp only [beqList, Bool.and_eq_true]
      rw [PyVal.beq_iff_eq a b, beqList_iff_eq as bs]
      simp

theorem beqDict_iff_eq :
    ∀ as bs : List (String × PyVal), beqDict as bs = true ↔ as = bs
  | [], [] => by simp [beqDict]
  | [], _ :: _ => by simp [beqDict]
  | _ :: _, [] => by simp [beqDict]
  | (k, a) :: as, (l, b) :: bs => by
      simp only [beqDict, Bool.and_eq_true]
      rw [PyVal.beq_iff_eq a b, beqDict_iff_eq as bs]
      constructor
      · rintro ⟨⟨h1, h2⟩, h3⟩
        simp_all
      · intro h
        simp_all

end

instance : DecidableEq PyVal := fun a b =>
  decidable_of_iff (PyVal.beq a b = true) (PyVal.beq_iff_eq a b)

/-! ### Python string rendering (`str`/`repr`) -/

/-- Fractional digits of a rational in `[0,1)`, most significant first,
truncated at the given fuel.  Python floats always have a finite decimal
expansion, so for values originating from floats the fuel is never
exhausted. -/
def fracDigits : Nat → Rat → List Char
  | 0, _ => []
  | fuel + 1, f =>
      if f = 0 then []
      else
        let f10 := f * 10
        let d : Nat := f10.floor.toNat
        Char.ofNat (48 + d) :: fracDigits fuel (f10 - (d : Rat))

/-- Python `str(float)`: sign, integer part, `.`, fractional digits (a float
with no fractional part renders as `x.0`).  Python prints the shortest
round-tripping form of the IEEE double; on the exact rationals of this model
that is the plain decimal expansion. -/
def floatRender (q : Rat) : String :=
  let sgn := if q < 0 then "-" else ""
  let a : Rat := |q|
  let ip : Nat := a.floor.toNat
  let frac := fracDigits 40 (a - a.floor)
  sgn ++ toString ip ++ "." ++ (if frac.isEmpty then "0" else String.mk frac)

mutual

/-- Python `str(value)` for the value model.  Containers render their
elements with `repr`, mirroring CPython. -/
def pyStr : PyVal → String
  | .null => "None"
  | .bool b => if b then "True" else "False"
  | .int n => toString n
  | .float q => floatRender q
  | .str s => s
  | .list l => "[" ++ String.intercalate ", " (pyReprList l) ++ "]"
  | .dict d => "\x7b" ++ String.intercalate ", " (pyReprDict d) ++ "\x7d"

/-- Python `repr(value)`: like `str` but strings are quoted.  (CPython's
escaping of quotes and control characters inside the string is not
modelled.) -/
def pyRepr : PyVal → String
  | .str s => "\x27" ++ s ++ "\x27"
  | .null => "None"
  | .bool b => if b then "True" else "False"
  | .int n => toString n
  | .float q => floatRender q
  | .list l => "[" ++ String.intercalate ", " (pyReprList l) ++ "]"
  | .dict d => "\x7b" ++ String.intercalate ", " (pyReprDict d) ++ "\x7d"

def pyReprList : List PyVal → List String
  | [] => []
  | v :: vs => pyRepr v :: pyReprList vs

def pyReprDict : List (String × PyVal) → List String
  | [] => []
  | (k, v) :: kvs => ("\x27" ++ k ++ "\x27: " ++ pyRepr v) :: pyReprDict kvs

end

/-! ### Code-point ordering on strings

Python compares and sorts strings by code point.  Lean's builtin `String.lt`
is implemented with iterators and does not reduce in the kernel, so the
development uses its own executable lexicographic order. -/

/-- Strict code-point lexicographic order on character lists. -/
def lexLt : List Char → List Char → Bool
  | [], [] => false
  | [], _ :: _ => true
  | _ :: _, [] => false
  | a :: as, b :: bs =>
      if a.toNat < b.toNat then true
      else if b.toNat < a.toNat then false
      else lexLt as bs

/-- Python `s < t` on strings (code-point lexicographic). -/
def strLt (s t : String) : Bool := lexLt s.data t.data

/-- Python `s <= t` on strings. -/
def strLe (s t : String) : Bool := !(strLt t s)

theorem char_eq_of_toNat_eq {x y : Char} (h : x.toNat = y.toNat) : x = y := by
  have h2 := congrArg Char.ofNat h
  rwa [Char.ofNat_toNat, Char.ofNat_toNat] at h2

theorem lexLt_irrefl (l : List Char) : lexLt l l = false := by
  induction l with
  | nil => rfl
  | cons c t ih => simp [lexLt, ih]

theorem lexLt_trichotomy (a b : List Char) :
    lexLt a b = true ∨ a = b ∨ lexLt b a = true := by
  induction a generalizing b with
  | nil => cases b with
    | nil => simp [lexLt]
    | cons y bs => simp [lexLt]
  | cons x as ih =>
      cases b with
      | nil => simp [lexLt]
      | cons y bs =>
          by_cases hxy : x.toNat < y.toNat
          · left; simp [lexLt, hxy]
          · by_cases hyx : y.toNat < x.toNat
            · right; right; simp [lexLt, hyx]
            · have hxyeq : x = y := char_eq_of_toNat_eq (by omega)
              subst hxyeq
              rcases ih bs with h | h | h
              · left; simp [lexLt, h]
              · right; left; simp [h]
              · right; right; simp [lexLt, h]

theorem lexLt_asymm {a b : List Char} (h : lexLt a b = true) :
    lexLt b a = false := by
  induction a generalizing b with
  | nil => cases b with
    | nil => simp [lexLt] at h
    | cons y bs => simp [lexLt]
  | cons x as ih =>
      cases b with
      | nil => simp [lexLt] at h
      | cons y bs =>
          simp only [lexLt] at h ⊢
          rcases Nat.lt_trichotomy x.toNat y.toNat with hxy | hxy | hxy
          · rw [if_neg (by omega), if_pos hxy]
          · rw [if_neg (by omega), if_neg (by omega)] at h ⊢
            exact ih h
          · rw [if_neg (by omega), if_pos hxy] at h
            exact absurd h (by simp)

theorem lexLt_trans {a b c : List Char} (hab : lexLt a b = true)
    (hbc : lexLt b c = true) : lexLt a c = true := by
  induction a generalizing b c with
  | nil =>
      cases c with
      | nil =>
          cases b with
          | nil => simp [lexLt] at hab
          | cons y bs => simp [lexLt] at hbc
      | cons z cs => simp [lexLt]
  | cons x as ih =>
      cases b with
      | nil => simp [lexLt] at hab
      | cons y bs =>
          cases c with
          | nil => simp [lexLt] at hbc
          | cons z cs =>
              simp only [lexLt] at hab hbc ⊢
              rcases Nat.lt_trichotomy x.toNat y.toNat with hxy | hxy | hxy <;>
                rcases Nat.lt_trichotomy y.toNat z.toNat with hyz | hyz | hyz
              · rw [if_pos (by omega)]
              · rw [if_pos (by omega)]
              · rw [if_neg (by omega), if_pos hyz] at hbc
                exact absurd hbc (by simp)
              · rw [if_pos (by omega)]
              · rw [if_neg (by omega), if_neg (by omega)] at hab hbc ⊢
                exact ih hab hbc
              · rw [if_neg (by omega), if_pos hyz] at hbc
                exact absurd hbc (by simp)
              · rw [if_neg (by omega), if_pos hxy] at hab
                exact absurd hab (by simp)
              · rw [if_neg (by omega), if_pos hxy] at hab
                exact absurd hab (by simp)
              · rw [if_neg (by omega), if_pos hxy] at hab
                exact absurd hab (by simp)

/-- The sort relation used everywhere Python sorts strings. -/
def strLeRel (a b : String) : Prop := strLe a b = true

instance : DecidableRel strLeRel := fun a b => by
  unfold strLeRel; infer_instance

theorem strLe_total (a b : String) : strLe a b = true ∨ strLe b a = true := by
  unfold strLe strLt
  rcases lexLt_trichotomy a.data b.data with h | h | h
  · left; simp [lexLt_asymm h]
  · left; rw [h]; simp [lexLt_irrefl]
  · right; simp [lexLt_asymm h]

theorem strLe_trans {a b c : String} (hab : strLe a b = true)
    (hbc : strLe b c = true) : strLe a c = true := by
  unfold strLe strLt at *
  simp only [Bool.not_eq_true'] at hab hbc ⊢
  by_contra hca
  simp only [Bool.not_eq_false] at hca
  rcases lexLt_trichotomy a.data b.data with h | h | h
  · exact absurd (lexLt_trans hca h) (by simp [hbc])
  · rw [h] at hca
    simp [hca] at hbc
  · simp [h] at hab

instance : IsTotal String strLeRel := ⟨fun a b => strLe_total a b⟩

instance : IsTrans String strLeRel := ⟨fun _ _ _ => strLe_trans⟩

/-- `sorted(list_of_strings)` — Python sorts by code point; insertion sort
is stable, like Python's sort. -/
def sortStrs (l : List String) : List String := List.insertionSort strLeRel l

/-! ## Business-key hash (`services/identity/bk_hash.py`)

`BKHashGenerator.generate` builds one `field=value` string per configured
business-key field (raising `ValueError` on a missing or `None` field),
sorts them, joins with `|`, prefixes the truthy entity name, and digests
with xxHash128.  The third-party digest is a parameter `xxh`. -/

/-- The extraction loop of `BKHashGenerator.generate` (lines 52-61):
one `f"\x7bfield\x7d=\x7bvalue\x7d"` entry per business-key field, failing at the
first missing or `None` field. -/
def bkExtract (record : PyDict) : List String → Except String (List String)
  | [] => .ok []
  | f :: fs =>
      match rowGet record f with
      | none => .error ("Business key field " ++ f ++ " not found in record")
      | some .null => .error ("Business key field " ++ f ++ " is NULL")
      | some v => (bkExtract record fs).map (fun rest => (f ++ "=" ++ pyStr v) :: rest)

/-- `BKHashGenerator.generate(record, business_key_fields, entity_name)`,
with the xxHash128 hex digest as the parameter `xxh`. -/
def bkGenerate (xxh : String → String) (record : PyDict)
    (businessKeyFields : List String) (entityName : Option String) :
    Except String String :=
  if businessKeyFields.isEmpty then .error "business_key_fields cannot be empty"
  else
    match bkExtract record businessKeyFields with
    | .error e => .error e
    | .ok keyValues =>
        let canonical := String.intercalate "|" (sortStrs keyValues)
        let canonical :=
          match entityName with
          | some e => if e.isEmpty then canonical else e ++ "|" ++ canonical
          | none => canonical
        .ok (xxh canonical)

/-- The canonical string as the specification words it: the `field=value`
pairs of exactly the configured business-key fields, sorted
lexicographically, joined by `|`, prefixed by `entity_name|` when an entity
name is given. -/
def specBKCanonical (record : PyDict) (businessKeyFields : List String)
    (entityName : Option String) : String :=
  let pairs := businessKeyFields.map
    (fun f => f ++ "=" ++ pyStr ((rowGet record f).getD .null))
  let base := String.intercalate "|" (sortStrs pairs)
  match entityName with
  | some e => if e.isEmpty then base else e ++ "|" ++ base
  | none => base

/-- 32 lowercase hex characters. -/
def isHex32Lower (s : String) : Bool :=
  s.data.length == 32 &&
    s.data.all (fun c => (48 ≤ c.toNat && c.toNat ≤ 57) || (97 ≤ c.toNat && c.toNat ≤ 102))

theorem bkExtract_ok {record : PyDict} {fields : List String}
    (h : ∀ f ∈ fields, ∃ v, rowGet record f = some v ∧ v ≠ .null) :
    bkExtract record fields =
      .ok (fields.map (fun f => f ++ "=" ++ pyStr ((rowGet record f).getD .null))) := by
  induction fields with
  | nil => rfl
  | cons f fs ih =>
      obtain ⟨v, hv, hvn⟩ := h f (by simp)
      have ih2 := ih (fun g hg => h g (by simp [hg]))
      cases v <;> simp_all [bkExtract, Except.map]

theorem bkExtract_congr {r r2 : PyDict} {fields : List String}
    (h : ∀ f ∈ fields, rowGet r2 f = rowGet r f) :
    bkExtract r2 fields = bkExtract r fields := by
  induction fields with
  | nil => rfl
  | cons f fs ih =>
      have hf := h f (by simp)
      have ih2 := ih (fun g hg => h g (by simp [hg]))
      simp [bkExtract, hf, ih2]

theorem bkExtract_error_iff {record : PyDict} {fields : List String} :
    (∃ e, bkExtract record fields = .error e) ↔
      ∃ f ∈ fields, rowGet record f = none ∨ rowGet record f = some .null := by
  induction fields with
  | nil => simp [bkExtract]
  | cons f fs ih =>
      constructor
      · rintro ⟨e, he⟩
        by_cases hf : rowGet record f = none ∨ rowGet record f = some .null
        · exact ⟨f, by simp, hf⟩
        · push_neg at hf
          obtain ⟨hf1, hf2⟩ := hf
          match hv : rowGet record f with
          | none => exact absurd hv hf1
          | some v =>
              have hvn : v ≠ .null := by
                intro hh; exact hf2 (by rw [hv, hh])
              rw [bkExtract, hv] at he
              have : ∃ e, bkExtract record fs = .error e := by
                cases v with
                | null => exact absurd rfl hvn
                | bool b =>
                    cases hrec : bkExtract record fs with
                    | ok l => rw [hrec] at he; simp [Except.map] at he
                    | error e2 => exact ⟨e2, rfl⟩
                | int n =>
                    cases hrec : bkExtract record fs with
                    | ok l => rw [hrec] at he; simp [Except.map] at he
                    | error e2 => exact ⟨e2, rfl⟩
                | float q =>
                    cases hrec : bkExtract record fs with
                    | ok l => rw [hrec] at he; simp [Except.map] at he
                    | error e2 => exact ⟨e2, rfl⟩
                | str s =>
                    cases hrec : bkExtract record fs with
                    | ok l => rw [hrec] at he; simp [Except.map] at he
                    | error e2 => exact ⟨e2, rfl⟩
                | list l =>
                    cases hrec : bkExtract record fs with
                    | ok l2 => rw [hrec] at he; simp [Except.map] at he
                    | error e2 => exact ⟨e2, rfl⟩
                | dict d =>
                    cases hrec : bkExtract record fs with
                    | ok l2 => rw [hrec] at he; simp [Except.map] at he
                    | error e2 => exact ⟨e2, rfl⟩
              obtain ⟨g, hg, hgor⟩ := ih.1 this
              exact ⟨g, by simp [hg], hgor⟩
      · rintro ⟨g, hg, hgor⟩
        rcases List.mem_cons.1 hg with hgf | hgfs
        · subst hgf
          rcases hgor with hnone | hnull
          · exact ⟨_, by rw [bkExtract, hnone]⟩
          · exact ⟨_, by rw [bkExtract, hnull]⟩
        · by_cases hf : rowGet record f = none ∨ rowGet record f = some .null
          · rcases hf with hnone | hnull
            · exact ⟨_, by rw [bkExtract, hnone]⟩
            · exact ⟨_, by rw [bkExtract, hnull]⟩
          · push_neg at hf
            obtain ⟨hf1, hf2⟩ := hf
            obtain ⟨e, he⟩ := ih.2 ⟨g, hgfs, hgor⟩
            match hv : rowGet record f with
            | none => exact absurd hv hf1
            | some v =>
                have hvn : v ≠ .null := by
                  intro hh; exact hf2 (by rw [hv, hh])
                refine ⟨e, ?_⟩
                rw [bkExtract, hv]
                cases v with
                | null => exact absurd rfl hvn
                | bool b => rw [he]; rfl
                | int n => rw [he]; rfl
                | float q => rw [he]; rfl
                | str s => rw [he]; rfl
                | list l => rw [he]; rfl
                | dict d => rw [he]; rfl

/-- **C1.** For every record, non-empty business-key field list and optional
entity name, BK generation returns the digest (here: the parameter `xxh`,
standing for the lowercase-hex xxHash128 of the library) of the canonical
string formed by the `field=value` pairs of exactly the configured
business-key fields, sorted lexicographically and joined by `|`, prefixed by
`entity_name|` when an entity name is given (the code treats an empty entity
string as not given, via Python truthiness).  The second conjunct is
determinism together with independence from the rest of the record: any
record agreeing on the business-key fields produces the same BK, so the
insertion order of other fields cannot affect it.  The third conjunct: when
the digest function yields 32 lowercase hex characters, so does the result. -/
theorem claim_C1_bk_canonical (xxh : String → String) (record : PyDict)
    (fields : List String) (entity : Option String)
    (hne : fields ≠ [])
    (hpresent : ∀ f ∈ fields, ∃ v, rowGet record f = some v ∧ v ≠ .null) :
    bkGenerate xxh record fields entity =
        .ok (xxh (specBKCanonical record fields entity))
    ∧ (∀ record2, (∀ f ∈ fields, rowGet record2 f = rowGet record f) →
        bkGenerate xxh record2 fields entity = bkGenerate xxh record fields entity)
    ∧ ((∀ s, isHex32Lower (xxh s) = true) →
        ∃ d, bkGenerate xxh record fields entity = .ok d ∧ isHex32Lower d = true) := by
  have hext := bkExtract_ok hpresent
  have hmain : bkGenerate xxh record fields entity =
      .ok (xxh (specBKCanonical record fields entity)) := by
    unfold bkGenerate specBKCanonical
    rw [if_neg (by simpa using hne), hext]
  refine ⟨hmain, ?_, ?_⟩
  · intro r2 hr2
    unfold bkGenerate
    rw [bkExtract_congr hr2]
  · intro hhex
    exact ⟨_, hmain, hhex _⟩

/-- Witness for C1 at the concrete record of the module's own docstring
(`item_number=PART-12345`, `site_code=SITE-A`, entity `items`) with a
constant stand-in digest function. -/
theorem claim_C1_bk_canonical_witness :
    bkGenerate (fun _ : String => "0123456789abcdef0123456789abcdef")
        [("item_number", PyVal.str "PART-12345"), ("site_code", PyVal.str "SITE-A")]
        ["item_number", "site_code"] (some "items") =
      .ok ((fun _ : String => "0123456789abcdef0123456789abcdef")
        (specBKCanonical
          [("item_number", PyVal.str "PART-12345"), ("site_code", PyVal.str "SITE-A")]
          ["item_number", "site_code"] (some "items")))
    ∧ (∀ record2, (∀ f ∈ ["item_number", "site_code"],
          rowGet record2 f =
            rowGet [("item_number", PyVal.str "PART-12345"),
              ("site_code", PyVal.str "SITE-A")] f) →
        bkGenerate (fun _ : String => "0123456789abcdef0123456789abcdef") record2
            ["item_number", "site_code"] (some "items") =
          bkGenerate (fun _ : String => "0123456789abcdef0123456789abcdef")
            [("item_number", PyVal.str "PART-12345"), ("site_code", PyVal.str "SITE-A")]
            ["item_number", "site_code"] (some "items"))
    ∧ ((∀ s, isHex32Lower ((fun _ : String => "0123456789abcdef0123456789abcdef") s) = true) →
        ∃ d, bkGenerate (fun _ : String => "0123456789abcdef0123456789abcdef")
            [("item_number", PyVal.str "PART-12345"), ("site_code", PyVal.str "SITE-A")]
            ["item_number", "site_code"] (some "items") = .ok d
          ∧ isHex32Lower d = true) :=
  claim_C1_bk_canonical (fun _ : String => "0123456789abcdef0123456789abcdef")
    [("item_number", PyVal.str "PART-12345"), ("site_code", PyVal.str "SITE-A")]
    ["item_number", "site_code"] (some "items")
    (by simp)
    (by
      intro f hf
      fin_cases hf
      · exact ⟨PyVal.str "PART-12345", rfl, by simp⟩
      · exact ⟨PyVal.str "SITE-A", rfl, by simp⟩)

/-- **C6.** For every record and non-empty business-key field list, BK
generation fails (raises, modelled as `Except.error`) if and only if some
business-key field is absent from the record or bound to `None`; when all
business-key fields are present and non-null it returns a hash without
error. -/
theorem claim_C6_bk_error_iff (xxh : String → String) (record : PyDict)
    (fields : List String) (entity : Option String) (hne : fields ≠ []) :
    ((∃ e, bkGenerate xxh record fields entity = .error e) ↔
      ∃ f ∈ fields, rowGet record f = none ∨ rowGet record f = some .null)
    ∧ ((∀ f ∈ fields, ∃ v, rowGet record f = some v ∧ v ≠ .null) →
        ∃ d, bkGenerate xxh record fields entity = .ok d) := by
  constructor
  · unfold bkGenerate
    rw [if_neg (by simpa using hne)]
    constructor
    · rintro ⟨e, he⟩
      apply bkExtract_error_iff.1
      cases hx : bkExtract record fields with
      | error e2 => exact ⟨e2, rfl⟩
      | ok l => rw [hx] at he; simp at he
    · rintro h
      obtain ⟨e, he⟩ := bkExtract_error_iff.2 h
      exact ⟨e, by rw [he]⟩
  · intro hpresent
    unfold bkGenerate
    rw [if_neg (by simpa using hne), bkExtract_ok hpresent]
    exact ⟨_, rfl⟩

/-- Witness for C6: a record whose `site_code` is `None` makes BK generation
fail, and the failing field is reported by the iff. -/
theorem claim_C6_bk_error_iff_witness :
    ((∃ e, bkGenerate (fun _ : String => "h")
        [("item_number", PyVal.str "X"), ("site_code", PyVal.null)]
        ["item_number", "site_code"] none = .error e) ↔
      ∃ f ∈ ["item_number", "site_code"],
        rowGet [("item_number", PyVal.str "X"), ("site_code", PyVal.null)] f = none ∨
          rowGet [("item_number", PyVal.str "X"), ("site_code", PyVal.null)] f =
            some PyVal.null)
    ∧ ((∀ f ∈ ["item_number", "site_code"], ∃ v,
          rowGet [("item_number", PyVal.str "X"), ("site_code", PyVal.null)] f = some v
            ∧ v ≠ PyVal.null) →
        ∃ d, bkGenerate (fun _ : String => "h")
          [("item_number", PyVal.str "X"), ("site_code", PyVal.null)]
          ["item_number", "site_code"] none = .ok d) :=
  claim_C6_bk_error_iff (fun _ : String => "h")
    [("item_number", PyVal.str "X"), ("site_code", PyVal.null)]
    ["item_number", "site_code"] none (by simp)

/-! ## Data hash (`services/identity/data_hash.py`)

`DataHashGenerator.generate_data_hash` normalizes every non-excluded field,
sorts the field names, renders `field=value` for the non-null normalized
values, joins with `|` and digests with BLAKE3 (the parameter `blake`). -/

/-- The default `exclude_fields` set of `generate_data_hash` (lines 43-49). -/
def defaultExcludeFields : List String :=
  ["created_at", "updated_at", "created_at_utc", "updated_at_utc",
   "uid", "id", "erp_key_hash", "erp_data_hash", "erp_rowversion"]

/-- Python whitespace, as stripped by `str.strip()` (ASCII part; the rare
non-ASCII whitespace code points are not modelled). -/
def isPyWS (c : Char) : Bool :=
  c = ' ' || c = '\t' || c = '\n' || c = '\r' || c = '\x0b' || c = '\x0c'

/-- Drop trailing whitespace (structural form of `reverse ∘ dropWhile ∘ reverse`). -/
def dropTrailWS : List Char → List Char
  | [] => []
  | c :: t =>
    match dropTrailWS t with
    | [] => if isPyWS c then [] else [c]
    | r => c :: r

/-- `str.strip()` on a character list. -/
def stripWS (l : List Char) : List Char :=
  dropTrailWS (l.dropWhile isPyWS)

/-- `s.strip()`. -/
def pyStripStr (s : String) : String := String.mk (stripWS s.data)

/-- `s.rstrip(c)`: drop trailing copies of one character. -/
def rstripChar (c : Char) (s : String) : String :=
  String.mk ((s.data.reverse.dropWhile (fun x => x = c)).reverse)

/-- Round half-to-even (the rounding of Python's fixed-point formatting). -/
def rhe (x : Rat) : Int :=
  let fl := x.floor
  let r := x - (fl : Rat)
  if r < 1/2 then fl
  else if 1/2 < r then fl + 1
  else if fl % 2 = 0 then fl else fl + 1

/-- Python `f"\x7bvalue:.6f\x7d"` on the rational shadow of a float: sign, integer
part, dot, exactly six fractional digits. -/
def fixed6 (q : Rat) : String :=
  let neg := q < 0
  let m : Nat := (rhe (|q| * 1000000)).toNat
  let ip := m / 1000000
  let fr := m % 1000000
  let d := toString fr
  let pad := String.mk (List.replicate (6 - d.length) '0') ++ d
  (if neg then "-" else "") ++ toString ip ++ "." ++ pad

/-- One lowercase hex digit. -/
def hexDigit (n : Nat) : Char :=
  if n < 10 then Char.ofNat (48 + n) else Char.ofNat (87 + n)

/-- `json.dumps` escaping of one character (default `ensure_ascii=True`;
astral code points, which Python escapes as surrogate pairs, are escaped
here as one `\uXXXX` unit). -/
def jsonEscapeChar (c : Char) : List Char :=
  if c = '"' then ['\\', '"']
  else if c = '\\' then ['\\', '\\']
  else if c = '\n' then ['\\', 'n']
  else if c = '\t' then ['\\', 't']
  else if c = '\r' then ['\\', 'r']
  else if c = '\x08' then ['\\', 'b']
  else if c = '\x0c' then ['\\', 'f']
  else if c.toNat < 32 || 126 < c.toNat then
    ['\\', 'u', hexDigit (c.toNat / 4096 % 16), hexDigit (c.toNat / 256 % 16),
     hexDigit (c.toNat / 16 % 16), hexDigit (c.toNat % 16)]
  else [c]

/-- `json.dumps` escaping of a string body. -/
def jsonEscape (s : String) : String :=
  String.mk (s.data.flatMap jsonEscapeChar)

/-- Sort relation on rendered dict entries: by key, code-point order. -/
def keyLeRel (a b : String × String) : Prop := strLe a.1 b.1 = true

instance : DecidableRel keyLeRel := fun a b => by
  unfold keyLeRel; infer_instance

mutual

/-- `json.dumps(value, sort_keys=True, separators=(",", ":"))`, the
normalization of composite values in `_normalize_value` (line 113-114). -/
def jsonDump : PyVal → String
  | .null => "null"
  | .bool b => if b then "true" else "false"
  | .int n => toString n
  | .float q => floatRender q
  | .str s => "\"" ++ jsonEscape s ++ "\""
  | .list l => "[" ++ String.intercalate "," (jsonDumpList l) ++ "]"
  | .dict d =>
      "\x7b" ++
        String.intercalate ","
          ((List.insertionSort keyLeRel (jsonDumpDict d)).map
            (fun p => "\"" ++ jsonEscape p.1 ++ "\":" ++ p.2)) ++ "\x7d"

def jsonDumpList : List PyVal → List String
  | [] => []
  | v :: vs => jsonDump v :: jsonDumpList vs

def jsonDumpDict : List (String × PyVal) → List (String × String)
  | [] => []
  | (k, v) :: kvs => (k, jsonDump v) :: jsonDumpDict kvs

end

/-- `DataHashGenerator._normalize_value`.  The branches fire in the source's
`isinstance` order: float, int, bool, str, list/dict.  A Python `bool` is an
instance of `int`, so a boolean takes the `int` branch and renders as
`str(value)` = `"True"`/`"False"`; the explicit boolean branch returning
`"true"`/`"false"` (lines 104-106) is unreachable. -/
def normalizeValue : PyVal → Option String
  | .null => none
  | .float q => some (rstripChar '.' (rstripChar '0' (fixed6 q)))
  | .int n => some (toString n)
  | .bool b => some (if b then "True" else "False")
  | .str s => some (pyStripStr s)
  | .list l => some (jsonDump (.list l))
  | .dict d => some (jsonDump (.dict d))

/-- First-match association-list lookup (dict access `data_to_hash[field]`;
record keys are distinct in Python, so first match is the match). -/
def alookup {α : Type} : List (String × α) → String → Option α
  | [], _ => none
  | (k, v) :: t, f => if k == f then some v else alookup t f

/-- The canonical string of `generate_data_hash`: normalize the non-excluded
fields, sort the field names alphabetically, keep the non-null normalized
values as `field=value`, join with `|`. -/
def canonicalDataString (row : PyDict) (excludeFields : Option (List String)) :
    String :=
  let exclude := excludeFields.getD defaultExcludeFields
  let entries := row.filterMap
    (fun p => if p.1 ∈ exclude then none else some (p.1, normalizeValue p.2))
  let sortedFields := sortStrs (entries.map (·.1))
  let keyValues := sortedFields.filterMap
    (fun f =>
      match alookup entries f with
      | some (some v) => some (f ++ "=" ++ v)
      | _ => none)
  String.intercalate "|" keyValues

/-- `DataHashGenerator.generate_data_hash`, the BLAKE3 hex digest as the
parameter `blake`. -/
def dataHashGenerate (blake : String → String) (row : PyDict)
    (excludeFields : Option (List String)) : String :=
  blake (canonicalDataString row excludeFields)

/-- 64 lowercase hex characters. -/
def isHex64Lower (s : String) : Bool :=
  s.data.length == 64 &&
    s.data.all (fun c => (48 ≤ c.toNat && c.toNat ≤ 57) || (97 ≤ c.toNat && c.toNat ≤ 102))

/-- The exclusion set exactly as claim C2 states it (it omits the
`created_at_utc` and `updated_at_utc` fields that the code also excludes). -/
def claimExcludeFields : List String :=
  ["created_at", "updated_at", "uid", "id",
   "erp_key_hash", "erp_data_hash", "erp_rowversion"]

/-- Value normalization exactly as claim C2 words it (booleans rendered
`"true"`/`"false"`). -/
def claimNormalizeValue : PyVal → Option String
  | .null => none
  | .float q => some (rstripChar '.' (rstripChar '0' (fixed6 q)))
  | .int n => some (toString n)
  | .bool b => some (if b then "true" else "false")
  | .str s => some (pyStripStr s)
  | .list l => some (jsonDump (.list l))
  | .dict d => some (jsonDump (.dict d))

/-- The canonical data string exactly as claim C2 describes it: all fields
except the claimed seven-element exclusion set, sorted lexicographically,
null values omitted, values normalized per the claim's clauses. -/
def specDataCanonical (row : PyDict) : String :=
  let fields := sortStrs
    ((row.filter (fun p => !(p.1 ∈ claimExcludeFields))).map (·.1))
  let keyValues := fields.filterMap
    (fun f => ((rowGet row f).bind claimNormalizeValue).map (fun v => f ++ "=" ++ v))
  String.intercalate "|" keyValues

/-- The canonical data string of the amended claim: the code's nine-element
exclusion set and `str(bool)` rendering, everything else as the claim
states. -/
def specDataCanonicalAmended (row : PyDict) : String :=
  let fields := sortStrs
    ((row.filter (fun p => !(p.1 ∈ defaultExcludeFields))).map (·.1))
  let keyValues := fields.filterMap
    (fun f => ((rowGet row f).bind normalizeValue).map (fun v => f ++ "=" ++ v))
  String.intercalate "|" keyValues

theorem alookup_dataEntries (row : PyDict) (exclude : List String) (f : String)
    (hf : f ∉ exclude) :
    alookup (row.filterMap
        (fun p => if p.1 ∈ exclude then none else some (p.1, normalizeValue p.2))) f =
      (rowGet row f).map normalizeValue := by
  induction row with
  | nil => rfl
  | cons kv t ih =>
      obtain ⟨k, v⟩ := kv
      by_cases hk : k ∈ exclude
      · have hkf : (k == f) = false := by
          simp only [beq_eq_false_iff_ne]
          intro hkeq; exact hf (hkeq ▸ hk)
        simp only [List.filterMap_cons, if_pos hk]
        rw [ih]
        simp [rowGet, List.find?, hkf]
      · simp only [List.filterMap_cons, if_neg hk]
        by_cases hkf : k = f
        · subst hkf
          simp [alookup, rowGet, List.find?]
        · have hkf2 : (k == f) = false := by simpa using hkf
          simpa [alookup, hkf2, rowGet, List.find?] using ih

theorem dataEntries_keys (row : PyDict) (exclude : List String) :
    (row.filterMap
        (fun p => if p.1 ∈ exclude then none else some (p.1, normalizeValue p.2))).map
        (·.1) =
      (row.filter (fun p => !(p.1 ∈ exclude))).map (·.1) := by
  induction row with
  | nil => rfl
  | cons kv t ih =>
      obtain ⟨k, v⟩ := kv
      by_cases hk : k ∈ exclude
      · simp only [List.filterMap_cons, if_pos hk, List.filter_cons]
        rw [if_neg (by simpa using hk)]
        exact ih
      · simp only [List.filterMap_cons, if_neg hk, List.filter_cons]
        rw [if_pos (by simpa using hk)]
        simpa using ih

theorem canonicalDataString_eq_amendedSpec (row : PyDict) :
    canonicalDataString row none = specDataCanonicalAmended row := by
  unfold canonicalDataString specDataCanonicalAmended
  simp only [Option.getD]
  rw [dataEntries_keys]
  congr 1
  apply List.filterMap_congr
  intro f hfmem
  have hf : f ∉ defaultExcludeFields := by
    have h1 : f ∈ (row.filter (fun p => !(p.1 ∈ defaultExcludeFields))).map (·.1) := by
      simpa [sortStrs] using (List.mem_insertionSort strLeRel).1 hfmem
    obtain ⟨p, hp, hpf⟩ := List.mem_map.1 h1
    have := List.of_mem_filter hp
    subst hpf
    simpa using this
  rw [alookup_dataEntries row defaultExcludeFields f hf]
  cases hg : rowGet row f with
  | none => rfl
  | some v =>
      cases hnv : normalizeValue v with
      | none => simp [hnv]
      | some s => simp [hnv]

/-- **C2 (counterexample).** The claim's canonical string differs from the
code's on a record with a boolean field and an `updated_at_utc` field: the
code renders `True` (the `"true"`/`"false"` branch is dead code, since
Python `bool` is a subclass of `int`) and also excludes `updated_at_utc`,
which is absent from the claim's seven-element exclusion set.  Hashing with
the identity function as the stand-in digest exhibits the difference. -/
theorem claim_C2_data_hash_counterexample :
    dataHashGenerate (fun s => s)
        [("flag", PyVal.bool true), ("updated_at_utc", PyVal.str "2025-01-01")] none ≠
      (fun s : String => s)
        (specDataCanonical
          [("flag", PyVal.bool true), ("updated_at_utc", PyVal.str "2025-01-01")]) := by
  decide

/-- **C2 (amended).** For every record, the data-hash canonical string is
built from all fields except the exclusion set `{created_at, updated_at,
created_at_utc, updated_at_utc, uid, id, erp_key_hash, erp_data_hash,
erp_rowversion}`, fields sorted lexicographically, null values omitted, and
values normalized as: floats via `%.6f` with trailing zeros (then a trailing
dot) stripped, integers without decimal, booleans via `str` as
`"True"`/`"False"`, strings trimmed, composite values as canonical compact
JSON with sorted keys; the data hash is the digest (parameter `blake`,
standing for lowercase-hex BLAKE3) of that string, and is 64 lowercase hex
characters whenever the digest function is. -/
theorem claim_C2_data_hash_amended (blake : String → String) (row : PyDict) :
    dataHashGenerate blake row none = blake (specDataCanonicalAmended row)
    ∧ ((∀ s, isHex64Lower (blake s) = true) →
        isHex64Lower (dataHashGenerate blake row none) = true) :=
  ⟨congrArg blake (canonicalDataString_eq_amendedSpec row),
   fun h => h _⟩

/-- Witness for the amended C2 at a record exercising every value shape
except floats, with a constant stand-in digest. -/
theorem claim_C2_data_hash_amended_witness :
    dataHashGenerate
        (fun _ : String =>
          "0123456789abcdef0123456789abcdef0123456789abcdef0123456789abcdef")
        [("item_number", PyVal.str " X1 "), ("qty", PyVal.int 5),
         ("active", PyVal.bool true), ("note", PyVal.null),
         ("tags", PyVal.list [PyVal.str "a"]),
         ("meta", PyVal.dict [("b", PyVal.int 1), ("a", PyVal.int 2)]),
         ("updated_at", PyVal.str "2025-01-01")] none =
      (fun _ : String =>
          "0123456789abcdef0123456789abcdef0123456789abcdef0123456789abcdef")
        (specDataCanonicalAmended
          [("item_number", PyVal.str " X1 "), ("qty", PyVal.int 5),
           ("active", PyVal.bool true), ("note", PyVal.null),
           ("tags", PyVal.list [PyVal.str "a"]),
           ("meta", PyVal.dict [("b", PyVal.int 1), ("a", PyVal.int 2)]),
           ("updated_at", PyVal.str "2025-01-01")])
    ∧ isHex64Lower
        (dataHashGenerate
          (fun _ : String =>
            "0123456789abcdef0123456789abcdef0123456789abcdef0123456789abcdef")
          [("item_number", PyVal.str " X1 "), ("qty", PyVal.int 5),
           ("active", PyVal.bool true), ("note", PyVal.null),
           ("tags", PyVal.list [PyVal.str "a"]),
           ("meta", PyVal.dict [("b", PyVal.int 1), ("a", PyVal.int 2)]),
           ("updated_at", PyVal.str "2025-01-01")] none) = true :=
  ⟨(claim_C2_data_hash_amended _ _).1,
   (claim_C2_data_hash_amended _ _).2 (fun _ => by decide)⟩

/-! ## Delta detection (`services/delta/`)

`DeltaEngine.detect_delta` builds a BK→record map of the stored records,
selects a strategy, classifies each incoming record
(`DeltaDetector.detect_operation` via the strategy's `detect_batch` loop),
appends DELETE records for stored BK hashes missing from the incoming set,
and categorizes.  The row-version comparator delegates to
`RowversionHandler.compare_rowversions`, whose date/number parsing is the
parameter `cmp` (its `None` handling, lines 68-73, is embedded). -/

/-- Delta operation types (`DeltaOperation`). -/
inductive DeltaOp where
  | INSERT : DeltaOp
  | UPDATE : DeltaOp
  | DELETE : DeltaOp
  | SKIP : DeltaOp
  deriving DecidableEq, Repr

/-- `DeltaRecord`: a record together with its classified operation.  Fields
that Python leaves as `None` hold `PyVal.null`. -/
structure DeltaRec where
  operation : DeltaOp
  record : PyDict
  bkHash : PyVal
  dataHash : PyVal
  storedDataHash : PyVal
  rowversion : PyVal
  storedRowversion : PyVal
  reason : String
  deriving DecidableEq, Repr

/-- `value[:8]` inside the detector's f-string reason: slicing any non-string
(for instance `None`) raises `TypeError`. -/
def slice8 : PyVal → Except String String
  | .str s => .ok (String.mk (s.data.take 8))
  | _ => .error "TypeError: value is not subscriptable"

/-- `RowversionHandler.compare_rowversions`: the `None` checks of lines
68-73, then the datetime/number/string comparison ladder as the parameter
`cmp`. -/
def compareRowversionsPy (cmp : PyVal → PyVal → Int) : PyVal → PyVal → Int
  | .null, .null => 0
  | .null, _ => -1
  | _, .null => 1
  | x, y => cmp x y

/-- `RowversionHandler.is_newer`: comparison strictly positive. -/
def isNewerPy (cmp : PyVal → PyVal → Int) (current stored : PyVal) : Bool :=
  0 < compareRowversionsPy cmp current stored

/-- `DeltaDetector.detect_operation`. -/
def detectOperation (cmp : PyVal → PyVal → Int) (record : PyDict)
    (stored : Option PyDict) (useRowversion : Bool) : Except String DeltaRec :=
  let bkHash := pyGet record "erp_key_hash"
  let dataHash := pyGet record "erp_data_hash"
  let rowversion := pyGet record "erp_rowversion"
  if !truthy bkHash || !truthy dataHash then
    .error "Record missing identity fields (erp_key_hash or erp_data_hash)"
  else
    match stored with
    | none =>
        .ok ⟨.INSERT, record, bkHash, dataHash, .null, rowversion, .null,
          "New record (BK_HASH not found in target)"⟩
    | some storedRecord =>
        let storedDataHash := pyGet storedRecord "erp_data_hash"
        let storedRowversion := pyGet storedRecord "erp_rowversion"
        if useRowversion && truthy rowversion && truthy storedRowversion then
          if isNewerPy cmp rowversion storedRowversion then
            .ok ⟨.UPDATE, record, bkHash, dataHash, storedDataHash, rowversion,
              storedRowversion,
              "Rowversion changed: " ++ pyStr storedRowversion ++ " → " ++ pyStr rowversion⟩
          else
            .ok ⟨.SKIP, record, bkHash, dataHash, storedDataHash, rowversion,
              storedRowversion, "Rowversion unchanged"⟩
        else
          if dataHash ≠ storedDataHash then
            match slice8 storedDataHash, slice8 dataHash with
            | .ok s1, .ok s2 =>
                .ok ⟨.UPDATE, record, bkHash, dataHash, storedDataHash, rowversion,
                  storedRowversion, "Data changed: " ++ s1 ++ "... → " ++ s2 ++ "..."⟩
            | .error e, _ => .error e
            | _, .error e => .error e
          else
            .ok ⟨.SKIP, record, bkHash, dataHash, storedDataHash, rowversion,
              storedRowversion, "Data unchanged"⟩

/-- Dict lookup keyed by a value (`stored_map.get(bk_hash)`); insertion with
overwrite makes the last binding authoritative. -/
def mapGetPy (m : List (PyVal × PyDict)) (k : PyVal) : Option PyDict :=
  (m.reverse.find? (fun p => decide (p.1 = k))).map (·.2)

/-- `DeltaEngine._build_stored_map` (also
`HashDeltaStrategy.build_stored_map`): BK_HASH → record for stored records
with a truthy `erp_key_hash`. -/
def buildStoredMap (stored : List PyDict) : List (PyVal × PyDict) :=
  stored.filterMap (fun r =>
    let bk := pyGet r "erp_key_hash"
    if truthy bk then some (bk, r) else none)

/-- The shared per-record loop of `HashDeltaStrategy.detect_batch`
(`use_rowversion=False`) and `RowversionDeltaStrategy.detect_batch`
(`use_rowversion=True`): records with a falsy `erp_key_hash` are skipped
with a warning, every other record is classified. -/
def detectBatch (cmp : PyVal → PyVal → Int) (incoming : List PyDict)
    (storedMap : List (PyVal × PyDict)) (useRowversion : Bool) :
    Except String (List DeltaRec) :=
  match incoming with
  | [] => .ok []
  | record :: rest =>
      let bkHash := pyGet record "erp_key_hash"
      if !truthy bkHash then detectBatch cmp rest storedMap useRowversion
      else
        match detectOperation cmp record (mapGetPy storedMap bkHash) useRowversion with
        | .error e => .error e
        | .ok dr =>
            match detectBatch cmp rest storedMap useRowversion with
            | .error e => .error e
            | .ok drs => .ok (dr :: drs)

/-- `DeltaStrategy` (the engine's strategy enum). -/
inductive DeltaStrategy where
  | rowversion : DeltaStrategy
  | hash : DeltaStrategy
  | auto : DeltaStrategy
  deriving DecidableEq, Repr

/-- `"erp_rowversion" in sample and sample["erp_rowversion"] is not None`. -/
def hasNonNullRowversion (r : PyDict) : Bool :=
  match rowGet r "erp_rowversion" with
  | some v => decide (v ≠ .null)
  | none => false

/-- `DeltaEngine._should_use_rowversion`: in AUTO mode only the FIRST
record (`sample_records[0]`) is inspected. -/
def shouldUseRowversion (strategy : DeltaStrategy) (sampleRecords : List PyDict) :
    Bool :=
  match strategy with
  | .hash => false
  | .rowversion => true
  | .auto =>
      match sampleRecords with
      | [] => false
      | sample :: _ => hasNonNullRowversion sample

/-- The truthy `erp_key_hash` values of a record list (the comprehension
`\x7br.get("erp_key_hash") for r in records if r.get("erp_key_hash")\x7d`). -/
def truthyBks (records : List PyDict) : List PyVal :=
  records.filterMap (fun r =>
    let v := pyGet r "erp_key_hash"
    if truthy v then some v else none)

/-- Membership in a Python set of values. -/
def pyMem (v : PyVal) (l : List PyVal) : Bool :=
  l.any (fun w => decide (w = v))

/-- Python `set(...)`: deduplication (sets are unordered; determinized here
as first-occurrence order). -/
def dedupPyAux (seen : List PyVal) : List PyVal → List PyVal
  | [] => []
  | v :: t => if pyMem v seen then dedupPyAux seen t else v :: dedupPyAux (v :: seen) t

/-- `set(l)` as a first-occurrence-ordered list. -/
def dedupPy (l : List PyVal) : List PyVal := dedupPyAux [] l

/-- `DeltaDetector.detect_deletes`: the set difference
`stored_bk_hashes - current_bk_hashes`. -/
def detectDeletesSet (currentBks storedBks : List PyVal) : List PyVal :=
  storedBks.filter (fun h => !pyMem h currentBks)

/-- `DeltaEngine._create_delete_records`: one DELETE record per deleted BK
that is present in the stored map (`data_hash` defaults to `""` via
`.get("erp_data_hash", "")`). -/
def createDeleteRecords (deleted : List PyVal) (storedMap : List (PyVal × PyDict)) :
    List DeltaRec :=
  deleted.filterMap (fun bk =>
    (mapGetPy storedMap bk).map (fun sr =>
      ⟨.DELETE, sr, bk,
        (match rowGet sr "erp_data_hash" with | some v => v | none => .str ""),
        pyGet sr "erp_data_hash", .null, .null, "Record missing from source"⟩))

/-- The four operation buckets (`categorize_records` output). -/
structure Categorized where
  insert : List DeltaRec
  update : List DeltaRec
  skip : List DeltaRec
  delete : List DeltaRec
  deriving DecidableEq, Repr

/-- `DeltaDetector.categorize_records`: the source appends each record to
its operation's bucket in one pass; one order-preserving filter per bucket
yields the same four lists. -/
def categorize (l : List DeltaRec) : Categorized :=
  ⟨l.filter (fun dr => decide (dr.operation = .INSERT)),
   l.filter (fun dr => decide (dr.operation = .UPDATE)),
   l.filter (fun dr => decide (dr.operation = .SKIP)),
   l.filter (fun dr => decide (dr.operation = .DELETE))⟩

/-- The metrics dict assembled by `get_metrics` and completed by
`detect_delta` (`strategy_used`, `total_incoming`, `total_stored`). -/
structure DeltaMetrics where
  total : Nat
  insert : Nat
  update : Nat
  skip : Nat
  delete : Nat
  efficiencyPercent : Rat
  strategyUsed : String
  totalIncoming : Nat
  totalStored : Nat
  deriving DecidableEq, Repr

/-- Python `round(x, 2)` (half-to-even) on the rational shadow. -/
def roundTo2 (x : Rat) : Rat := (rhe (x * 100) : Rat) / 100

/-- `DeltaDetector.get_metrics`; the three fields `detect_delta` fills in
afterwards are initialized neutrally here. -/
def getMetrics (c : Categorized) : DeltaMetrics :=
  let total := c.insert.length + c.update.length + c.skip.length + c.delete.length
  let actionable := c.insert.length + c.update.length + c.delete.length
  ⟨total, c.insert.length, c.update.length, c.skip.length, c.delete.length,
   (if 0 < total then roundTo2 ((actionable : Rat) / (total : Rat) * 100) else 0),
   "", 0, 0⟩

/-- `DeltaEngine.detect_delta`. -/
def detectDelta (cmp : PyVal → PyVal → Int) (strategy : DeltaStrategy)
    (incoming stored : List PyDict) : Except String (Categorized × DeltaMetrics) :=
  let storedMap := buildStoredMap stored
  let useRV := shouldUseRowversion strategy incoming
  match detectBatch cmp incoming storedMap useRV with
  | .error e => .error e
  | .ok batch =>
      let deleted := detectDeletesSet (dedupPy (truthyBks incoming))
        (dedupPy (truthyBks stored))
      let deleteRecs := createDeleteRecords deleted storedMap
      let cat := categorize (batch ++ deleteRecs)
      let m := getMetrics cat
      .ok (cat, ⟨m.total, m.insert, m.update, m.skip, m.delete, m.efficiencyPercent,
        (if useRV then "rowversion" else "hash"), incoming.length, stored.length⟩)

/-- `BatchOrchestrator._stage_delta`: the stored records are fetched from
the sink *by the incoming records' truthy BK hashes*
(`get_batch_by_bk_hashes(entity, bk_hashes)`, the fetch modelled by the
parameter `fetch`), then the delta engine runs with strategy AUTO.  The
stage is the same for every `sync_type`. -/
def stageDelta (cmp : PyVal → PyVal → Int) (fetch : List PyVal → List PyDict)
    (incoming : List PyDict) : Except String (Categorized × DeltaMetrics) :=
  let bkHashes := truthyBks incoming
  let storedRecords := fetch bkHashes
  detectDelta cmp .auto incoming storedRecords

theorem compareRowversionsPy_nonnull (cmp : PyVal → PyVal → Int) {v w : PyVal}
    (hv : v ≠ .null) (hw : w ≠ .null) :
    compareRowversionsPy cmp v w = cmp v w := by
  cases v <;> cases w <;> first | rfl | simp_all

theorem truthy_ne_null {v : PyVal} (h : truthy v = true) : v ≠ .null := by
  intro hn; rw [hn] at h; simp [truthy] at h

theorem detectOperation_ok_op {cmp : PyVal → PyVal → Int} {record : PyDict}
    {stored : Option PyDict} {u : Bool} {dr : DeltaRec}
    (h : detectOperation cmp record stored u = .ok dr) :
    dr.operation ≠ .DELETE ∧ dr.bkHash = pyGet record "erp_key_hash" := by
  simp only [detectOperation] at h
  repeat' split at h
  all_goals first
    | (injection h with h2; subst h2; exact ⟨by simp, rfl⟩)
    | exact absurd h (by simp)

theorem detectBatch_ops {cmp : PyVal → PyVal → Int} {incoming : List PyDict}
    {storedMap : List (PyVal × PyDict)} {u : Bool} {l : List DeltaRec}
    (h : detectBatch cmp incoming storedMap u = .ok l) :
    ∀ dr ∈ l, dr.operation ≠ .DELETE := by
  induction incoming generalizing l with
  | nil =>
      simp only [detectBatch] at h
      injection h with h2
      subst h2
      simp
  | cons record rest ih =>
      simp only [detectBatch] at h
      split at h
      · exact ih h
      · cases hop : detectOperation cmp record
            (mapGetPy storedMap (pyGet record "erp_key_hash")) u with
        | error e => simp only [hop] at h; simp at h
        | ok dr2 =>
            simp only [hop] at h
            cases hrest : detectBatch cmp rest storedMap u with
            | error e => simp only [hrest] at h; simp at h
            | ok drs =>
                simp only [hrest] at h
                injection h with h2
                subst h2
                intro dr hdr
                rcases List.mem_cons.1 hdr with rfl | hmem
                · exact (detectOperation_ok_op hop).1
                · exact ih hrest dr hmem

theorem createDeleteRecords_ops (deleted : List PyVal)
    (storedMap : List (PyVal × PyDict)) :
    ∀ dr ∈ createDeleteRecords deleted storedMap, dr.operation = .DELETE := by
  intro dr hdr
  obtain ⟨bk, _, hmap⟩ := List.mem_filterMap.1 hdr
  cases hg : mapGetPy storedMap bk with
  | none => rw [hg] at hmap; simp at hmap
  | some sr =>
      rw [hg] at hmap
      simp only [Option.map_some'] at hmap
      injection hmap with h2
      subst h2
      rfl

theorem pyMem_iff_mem {v : PyVal} {l : List PyVal} : pyMem v l = true ↔ v ∈ l := by
  simp [pyMem, List.any_eq_true]

theorem mem_dedupPyAux {v : PyVal} {l : List PyVal} (seen : List PyVal)
    (h : v ∈ l) : v ∈ dedupPyAux seen l ∨ v ∈ seen := by
  induction l generalizing seen with
  | nil => simp at h
  | cons w t ih =>
      simp only [dedupPyAux]
      by_cases hw : pyMem w seen = true
      · rw [if_pos hw]
        rcases List.mem_cons.1 h with rfl | hmem
        · exact Or.inr (pyMem_iff_mem.1 hw)
        · exact ih seen hmem
      · rw [if_neg hw]
        rcases List.mem_cons.1 h with rfl | hmem
        · exact Or.inl (List.mem_cons_self _ _)
        · rcases ih (w :: seen) hmem with hin | hin
          · exact Or.inl (List.mem_cons_of_mem _ hin)
          · rcases List.mem_cons.1 hin with rfl | hseen
            · exact Or.inl (List.mem_cons_self _ _)
            · exact Or.inr hseen

theorem dedupPyAux_subset {v : PyVal} {l : List PyVal} {seen : List PyVal}
    (h : v ∈ dedupPyAux seen l) : v ∈ l := by
  induction l generalizing seen with
  | nil => simp [dedupPyAux] at h
  | cons w t ih =>
      simp only [dedupPyAux] at h
      split at h
      · exact List.mem_cons_of_mem _ (ih h)
      · rcases List.mem_cons.1 h with rfl | hmem
        · exact List.mem_cons_self _ _
        · exact List.mem_cons_of_mem _ (ih hmem)

theorem mem_truthyBks {h : PyVal} {records : List PyDict} :
    h ∈ truthyBks records ↔
      ∃ r ∈ records, pyGet r "erp_key_hash" = h ∧ truthy h = true := by
  simp only [truthyBks, List.mem_filterMap]
  constructor
  · rintro ⟨r, hr, hsome⟩
    split at hsome
    · injection hsome with h2
      subst h2
      exact ⟨r, hr, rfl, by assumption⟩
    · simp at hsome
  · rintro ⟨r, hr, hget, htr⟩
    refine ⟨r, hr, ?_⟩
    rw [hget]
    simp [htr]

/-- **C10.** When the row-version comparison is in use (rowversion strategy
active and both the incoming and the stored record carry truthy
row-versions) and the incoming row-version is not strictly newer than the
stored one (comparator result `≤ 0`, i.e. equal or strictly older), the
record is classified SKIP, not UPDATE — a stale incoming record never
overwrites newer sink state.  `cmp` is the datetime/number/string
comparison ladder of `compare_rowversions`. -/
theorem claim_C10_stale_rowversion_skips (cmp : PyVal → PyVal → Int)
    (record storedRecord : PyDict)
    (hbk : truthy (pyGet record "erp_key_hash") = true)
    (hdh : truthy (pyGet record "erp_data_hash") = true)
    (hrv : truthy (pyGet record "erp_rowversion") = true)
    (hsrv : truthy (pyGet storedRecord "erp_rowversion") = true)
    (hstale : cmp (pyGet record "erp_rowversion") (pyGet storedRecord "erp_rowversion") ≤ 0) :
    ∃ dr, detectOperation cmp record (some storedRecord) true = .ok dr
      ∧ dr.operation = .SKIP ∧ dr.operation ≠ .UPDATE := by
  have hcmp := compareRowversionsPy_nonnull cmp (truthy_ne_null hrv) (truthy_ne_null hsrv)
  have hnl : ¬ (0 < compareRowversionsPy cmp (pyGet record "erp_rowversion")
      (pyGet storedRecord "erp_rowversion")) := by
    rw [hcmp]; omega
  have hdec : decide (0 < compareRowversionsPy cmp (pyGet record "erp_rowversion")
      (pyGet storedRecord "erp_rowversion")) = false := decide_eq_false hnl
  have hres : detectOperation cmp record (some storedRecord) true =
      .ok ⟨.SKIP, record, pyGet record "erp_key_hash", pyGet record "erp_data_hash",
        pyGet storedRecord "erp_data_hash", pyGet record "erp_rowversion",
        pyGet storedRecord "erp_rowversion", "Rowversion unchanged"⟩ := by
    simp [detectOperation, hbk, hdh, hrv, hsrv, isNewerPy, hdec]
  exact ⟨_, hres, rfl, by simp⟩

/-- Witness for C10: equal row-versions (`cmp = 0`) on a record whose data
hash differs from the stored one — the rowversion path still classifies
SKIP. -/
theorem claim_C10_stale_rowversion_skips_witness :
    ∃ dr, detectOperation (fun _ _ => 0)
        [("erp_key_hash", PyVal.str "a"), ("erp_data_hash", PyVal.str "d1"),
         ("erp_rowversion", PyVal.str "5")]
        (some [("erp_key_hash", PyVal.str "a"), ("erp_data_hash", PyVal.str "d0"),
         ("erp_rowversion", PyVal.str "5")]) true = .ok dr
      ∧ dr.operation = .SKIP ∧ dr.operation ≠ .UPDATE :=
  claim_C10_stale_rowversion_skips (fun _ _ => 0) _ _
    (by decide) (by decide) (by decide) (by decide) (by decide)

/-- **C3 (counterexample).** Under the default auto strategy the engine
inspects only the first incoming record: a batch whose first record carries
a non-null `erp_rowversion` while the second does not still selects the
row-version strategy (and the metrics report it), refuting "if and only if
every incoming record carries a non-null erp_rowversion". -/
theorem claim_C3_auto_strategy_counterexample :
    shouldUseRowversion .auto
        [[("erp_key_hash", PyVal.str "a"), ("erp_data_hash", PyVal.str "d"),
          ("erp_rowversion", PyVal.str "1")],
         [("erp_key_hash", PyVal.str "b"), ("erp_data_hash", PyVal.str "e")]] = true
    ∧ ([[("erp_key_hash", PyVal.str "a"), ("erp_data_hash", PyVal.str "d"),
          ("erp_rowversion", PyVal.str "1")],
        [("erp_key_hash", PyVal.str "b"), ("erp_data_hash", PyVal.str "e")]].all
          hasNonNullRowversion) = false
    ∧ ∃ cat m, detectDelta (fun _ _ => 0) .auto
        [[("erp_key_hash", PyVal.str "a"), ("erp_data_hash", PyVal.str "d"),
          ("erp_rowversion", PyVal.str "1")],
         [("erp_key_hash", PyVal.str "b"), ("erp_data_hash", PyVal.str "e")]] [] =
          .ok (cat, m) ∧ m.strategyUsed = "rowversion" :=
  ⟨by decide, by decide, _, _, rfl, rfl⟩

/-- **C3 (amended).** Under the default auto strategy, a delta run uses the
row-version strategy if and only if the incoming batch is non-empty and its
*first* record carries a non-null `erp_rowversion` (the code samples
`sample_records[0]` only); the metrics report the strategy actually used. -/
theorem claim_C3_auto_strategy_amended (cmp : PyVal → PyVal → Int)
    (incoming stored : List PyDict) :
    (shouldUseRowversion .auto incoming = true ↔
      ∃ r rest, incoming = r :: rest ∧ hasNonNullRowversion r = true)
    ∧ ((detectDelta cmp .auto incoming stored).toOption.map (fun p => p.2.strategyUsed) =
        (detectDelta cmp .auto incoming stored).toOption.map
          (fun _ => if shouldUseRowversion .auto incoming then "rowversion" else "hash")) := by
  constructor
  · cases incoming with
    | nil => simp [shouldUseRowversion]
    | cons r rest =>
        simp only [shouldUseRowversion]
        constructor
        · intro hh
          exact ⟨r, rest, rfl, hh⟩
        · rintro ⟨r', rest', heq, hh⟩
          injection heq with h1 h2
          subst h1
          exact hh
  · simp only [detectDelta]
    cases hb : detectBatch cmp incoming (buildStoredMap stored)
        (shouldUseRowversion .auto incoming) with
    | error e => simp [Except.toOption]
    | ok batch => simp [Except.toOption]

/-- **C5.** In the orchestrated pipeline the delta stage fetches stored
records from the sink *keyed by the incoming records' BK hashes*, so every
fetched record's truthy `erp_key_hash` lies in the requested key list
(hypothesis `hfetch`, the sink's batch-query contract).  Consequently the
set difference `stored \ incoming` is empty and the DELETE bucket of every
orchestrated delta run is empty — in particular an incremental run never
produces a DELETE operation.  The stage does not depend on `sync_type` at
all (quantified here as `syncType`): no orchestrated sync type produces
DELETEs, which also makes "DELETEs only on full syncs" hold vacuously. -/
theorem claim_C5_incremental_no_deletes (cmp : PyVal → PyVal → Int)
    (fetch : List PyVal → List PyDict) (syncType : String)
    (incoming : List PyDict)
    (hfetch : ∀ ks, ∀ r ∈ fetch ks,
      truthy (pyGet r "erp_key_hash") = true → pyGet r "erp_key_hash" ∈ ks) :
    ∀ cat m, stageDelta cmp fetch incoming = .ok (cat, m) → cat.delete = [] := by
  intro cat m h
  simp only [stageDelta, detectDelta] at h
  cases hb : detectBatch cmp incoming (buildStoredMap (fetch (truthyBks incoming)))
      (shouldUseRowversion .auto incoming) with
  | error e => rw [hb] at h; simp at h
  | ok batch =>
      rw [hb] at h
      simp only [Except.ok.injEq, Prod.mk.injEq] at h
      obtain ⟨hcat, _⟩ := h
      have hdel : detectDeletesSet (dedupPy (truthyBks incoming))
          (dedupPy (truthyBks (fetch (truthyBks incoming)))) = [] := by
        apply List.filter_eq_nil_iff.2
        intro a ha
        have hstored : a ∈ truthyBks (fetch (truthyBks incoming)) := dedupPyAux_subset ha
        obtain ⟨r, hr, hget, htr⟩ := mem_truthyBks.1 hstored
        have hks : a ∈ truthyBks incoming := by
          have := hfetch (truthyBks incoming) r hr
          rw [hget] at this
          exact this htr
        have hmem : a ∈ dedupPy (truthyBks incoming) := by
          rcases mem_dedupPyAux [] hks with hin | hin
          · exact hin
          · simp at hin
        simp [pyMem_iff_mem.2 hmem]
      rw [hdel] at hcat
      subst hcat
      simp only [categorize, createDeleteRecords, List.filterMap_nil, List.append_nil]
      apply List.filter_eq_nil_iff.2
      intro dr hdr
      have := detectBatch_ops hb dr hdr
      simp_all

/-- Witness for C5: one incoming record, a fetch that returns the matching
stored record for the requested keys; the delta run succeeds and its DELETE
bucket is empty. -/
theorem claim_C5_incremental_no_deletes_witness :
    ∃ cat m, stageDelta (fun _ _ => 0)
        (fun ks => if PyVal.str "a" ∈ ks
          then [[("erp_key_hash", PyVal.str "a"), ("erp_data_hash", PyVal.str "d")]]
          else [])
        [[("erp_key_hash", PyVal.str "a"), ("erp_data_hash", PyVal.str "d")]] =
          .ok (cat, m)
      ∧ cat.delete = [] := by
  obtain ⟨p, hp⟩ : ∃ p, stageDelta (fun _ _ => 0)
      (fun ks => if PyVal.str "a" ∈ ks
        then [[("erp_key_hash", PyVal.str "a"), ("erp_data_hash", PyVal.str "d")]]
        else [])
      [[("erp_key_hash", PyVal.str "a"), ("erp_data_hash", PyVal.str "d")]] =
        .ok p := ⟨_, rfl⟩
  refine ⟨p.1, p.2, by rw [hp], ?_⟩
  exact claim_C5_incremental_no_deletes (fun _ _ => 0)
    (fun ks => if PyVal.str "a" ∈ ks
      then [[("erp_key_hash", PyVal.str "a"), ("erp_data_hash", PyVal.str "d")]]
      else [])
    "incremental"
    [[("erp_key_hash", PyVal.str "a"), ("erp_data_hash", PyVal.str "d")]]
    (by
      intro ks r hr htr
      simp only [] at hr
      by_cases hks : PyVal.str "a" ∈ ks
      · rw [if_pos hks] at hr
        rcases List.mem_cons.1 hr with rfl | hmem
        · exact hks
        · simp at hmem
      · rw [if_neg hks] at hr
        simp at hr)
    p.1 p.2 (by rw [hp])

theorem str_truthy_of_ne {t : String} (h : t ≠ "") : truthy (.str t) = true := by
  simp only [truthy, Bool.not_eq_true']
  cases he : t.isEmpty
  · rfl
  · exact absurd ((String.isEmpty_iff t).1 he) h

theorem detectOperation_ok_of {cmp : PyVal → PyVal → Int} {record : PyDict}
    {stored : Option PyDict} {u : Bool}
    (hbk : truthy (pyGet record "erp_key_hash") = true)
    (hdh : ∃ t, pyGet record "erp_data_hash" = .str t ∧ t ≠ "")
    (hst : ∀ sr, stored = some sr → ∃ t, pyGet sr "erp_data_hash" = .str t) :
    ∃ dr, detectOperation cmp record stored u = .ok dr
      ∧ dr.bkHash = pyGet record "erp_key_hash" ∧ dr.operation ≠ .DELETE := by
  obtain ⟨t, ht, htne⟩ := hdh
  have hdtr : truthy (pyGet record "erp_data_hash") = true := by
    rw [ht]; exact str_truthy_of_ne htne
  cases stored with
  | none =>
      simp only [detectOperation]
      rw [if_neg (by simp [hbk, hdtr])]
      exact ⟨_, rfl, rfl, by simp⟩
  | some sr =>
      simp only [detectOperation]
      rw [if_neg (by simp [hbk, hdtr])]
      obtain ⟨t2, ht2⟩ := hst sr rfl
      by_cases hrv : (u && truthy (pyGet record "erp_rowversion")
          && truthy (pyGet sr "erp_rowversion")) = true
      · rw [if_pos hrv]
        by_cases hn : isNewerPy cmp (pyGet record "erp_rowversion")
            (pyGet sr "erp_rowversion") = true
        · rw [if_pos hn]
          exact ⟨_, rfl, rfl, by simp⟩
        · rw [if_neg hn]
          exact ⟨_, rfl, rfl, by simp⟩
      · rw [if_neg hrv]
        by_cases hne : pyGet record "erp_data_hash" ≠ pyGet sr "erp_data_hash"
        · rw [if_pos hne]
          simp only [ht, ht2, slice8]
          exact ⟨_, rfl, rfl, by simp⟩
        · rw [if_neg hne]
          exact ⟨_, rfl, rfl, by simp⟩

theorem detectBatch_ok_of {cmp : PyVal → PyVal → Int} {incoming : List PyDict}
    {storedMap : List (PyVal × PyDict)} {u : Bool}
    (hin : ∀ r ∈ incoming,
      (∃ s, pyGet r "erp_key_hash" = PyVal.str s ∧ s ≠ "") ∧
      (∃ t, pyGet r "erp_data_hash" = PyVal.str t ∧ t ≠ ""))
    (hmap : ∀ k sr, mapGetPy storedMap k = some sr →
      ∃ t, pyGet sr "erp_data_hash" = PyVal.str t) :
    ∃ l, detectBatch cmp incoming storedMap u = .ok l
      ∧ l.map DeltaRec.bkHash = incoming.map (fun r => pyGet r "erp_key_hash") := by
  induction incoming with
  | nil => exact ⟨[], rfl, rfl⟩
  | cons record rest ih =>
      obtain ⟨⟨s, hs, hsne⟩, hdh⟩ := hin record (List.mem_cons_self _ _)
      have hbtr : truthy (pyGet record "erp_key_hash") = true := by
        rw [hs]; exact str_truthy_of_ne hsne
      obtain ⟨l, hl, hmapeq⟩ := ih (fun r hr => hin r (List.mem_cons_of_mem _ hr))
      obtain ⟨dr, hdr, hbk, _⟩ := @detectOperation_ok_of cmp record
        (mapGetPy storedMap (pyGet record "erp_key_hash")) u
        hbtr hdh (fun sr hsr => hmap _ sr hsr)
      refine ⟨dr :: l, ?_, ?_⟩
      · simp only [detectBatch]
        rw [if_neg (by simp [hbtr])]
        simp only [hdr, hl]
      · simp [hbk, hmapeq]

theorem mapGetPy_buildStoredMap_mem {stored : List PyDict} {k : PyVal} {sr : PyDict}
    (h : mapGetPy (buildStoredMap stored) k = some sr) : sr ∈ stored := by
  unfold mapGetPy at h
  cases hf : (buildStoredMap stored).reverse.find? (fun p => decide (p.1 = k)) with
  | none => rw [hf] at h; simp at h
  | some p =>
      rw [hf] at h
      simp only [Option.map_some'] at h
      injection h with h2
      have hp : p ∈ (buildStoredMap stored).reverse := List.mem_of_find?_eq_some hf
      rw [List.mem_reverse] at hp
      unfold buildStoredMap at hp
      obtain ⟨r, hr, hpr⟩ := List.mem_filterMap.1 hp
      simp only at hpr
      split at hpr
      · injection hpr with h3
        subst h3
        rw [← h2]
        exact hr
      · simp at hpr

theorem filters_ius_length {l : List DeltaRec}
    (h : ∀ dr ∈ l, dr.operation ≠ .DELETE) :
    (l.filter (fun dr => decide (dr.operation = .INSERT))).length +
      (l.filter (fun dr => decide (dr.operation = .UPDATE))).length +
      (l.filter (fun dr => decide (dr.operation = .SKIP))).length = l.length := by
  induction l with
  | nil => rfl
  | cons dr t ih =>
      have hdr := h dr (List.mem_cons_self _ _)
      have iht := ih (fun d hd => h d (List.mem_cons_of_mem _ hd))
      simp only [List.filter_cons]
      cases hop : dr.operation <;> simp_all <;> omega

theorem dedupPyAux_length_le (seen : List PyVal) (l : List PyVal) :
    (dedupPyAux seen l).length ≤ l.length := by
  induction l generalizing seen with
  | nil => simp [dedupPyAux]
  | cons w t ih =>
      simp only [dedupPyAux]
      split
      · exact Nat.le_succ_of_le (ih seen)
      · simpa using ih (w :: seen)

/-- **C4 (counterexample).** A record whose `erp_key_hash` is the empty
string is identity-stamped in the claim's sense (both identity fields
non-null), yet the strategy loop drops it (`if not bk_hash: continue`), so
it appears in no bucket: the union of the insert/update/skip BK sets misses
the incoming BK `""`. -/
theorem claim_C4_bucket_partition_counterexample :
    ∃ cat m, detectDelta (fun _ _ => 0) .auto
        [[("erp_key_hash", PyVal.str ""), ("erp_data_hash", PyVal.str "d")]] [] =
          .ok (cat, m)
      ∧ (∀ r ∈ [[("erp_key_hash", PyVal.str ""), ("erp_data_hash", PyVal.str "d")]],
          rowGet r "erp_key_hash" ≠ none ∧ rowGet r "erp_key_hash" ≠ some PyVal.null ∧
          rowGet r "erp_data_hash" ≠ none ∧ rowGet r "erp_data_hash" ≠ some PyVal.null)
      ∧ (∃ r ∈ [[("erp_key_hash", PyVal.str ""), ("erp_data_hash", PyVal.str "d")]],
          pyGet r "erp_key_hash" = PyVal.str "")
      ∧ PyVal.str "" ∉ (cat.insert ++ cat.update ++ cat.skip).map DeltaRec.bkHash :=
  ⟨_, _, rfl, by decide,
   ⟨[("erp_key_hash", PyVal.str ""), ("erp_data_hash", PyVal.str "d")], by simp, rfl⟩,
   by decide⟩

/-- **C4 (amended).** For every delta run whose incoming records carry
*non-empty string* `erp_key_hash` and `erp_data_hash` values (identity
stamps are hex strings; the code drops falsy keys and slices hashes in
reason strings) and whose stored records carry string `erp_data_hash`
values, the run succeeds and the categorized output satisfies
`|insert| + |update| + |skip| + |delete| ≤ |incoming| + |stored|`, and the
union of the BK hashes of the insert, update and skip buckets equals the
BK-hash set of the incoming records. -/
theorem detectDelta_ok_of_batch {cmp : PyVal → PyVal → Int}
    {strategy : DeltaStrategy} {incoming stored : List PyDict} {batch : List DeltaRec}
    (hbatch : detectBatch cmp incoming (buildStoredMap stored)
      (shouldUseRowversion strategy incoming) = .ok batch) :
    ∃ m, detectDelta cmp strategy incoming stored =
      .ok (categorize (batch ++ createDeleteRecords
        (detectDeletesSet (dedupPy (truthyBks incoming)) (dedupPy (truthyBks stored)))
        (buildStoredMap stored)), m) := by
  simp only [detectDelta, hbatch]
  exact ⟨_, rfl⟩

theorem claim_C4_bucket_partition_amended (cmp : PyVal → PyVal → Int)
    (strategy : DeltaStrategy) (incoming stored : List PyDict)
    (hin : ∀ r ∈ incoming,
      (∃ s, pyGet r "erp_key_hash" = PyVal.str s ∧ s ≠ "") ∧
      (∃ t, pyGet r "erp_data_hash" = PyVal.str t ∧ t ≠ ""))
    (hstored : ∀ r ∈ stored, ∃ t, pyGet r "erp_data_hash" = PyVal.str t) :
    ∃ cat m, detectDelta cmp strategy incoming stored = .ok (cat, m)
      ∧ cat.insert.length + cat.update.length + cat.skip.length + cat.delete.length ≤
          incoming.length + stored.length
      ∧ ∀ h, h ∈ (cat.insert ++ cat.update ++ cat.skip).map DeltaRec.bkHash ↔
          ∃ r ∈ incoming, pyGet r "erp_key_hash" = h := by
  obtain ⟨batch, hbatch, hbks⟩ := @detectBatch_ok_of cmp incoming
    (buildStoredMap stored) (shouldUseRowversion strategy incoming) hin
    (fun k sr hk => hstored sr (mapGetPy_buildStoredMap_mem hk))
  have hops := detectBatch_ops hbatch
  obtain ⟨m, hdd⟩ := detectDelta_ok_of_batch hbatch
  have hdelI : (createDeleteRecords
      (detectDeletesSet (dedupPy (truthyBks incoming)) (dedupPy (truthyBks stored)))
      (buildStoredMap stored)).filter
        (fun dr => decide (dr.operation = DeltaOp.INSERT)) = [] := by
    apply List.filter_eq_nil_iff.2
    intro dr hdr
    simp [createDeleteRecords_ops _ _ dr hdr]
  have hdelU : (createDeleteRecords
      (detectDeletesSet (dedupPy (truthyBks incoming)) (dedupPy (truthyBks stored)))
      (buildStoredMap stored)).filter
        (fun dr => decide (dr.operation = DeltaOp.UPDATE)) = [] := by
    apply List.filter_eq_nil_iff.2
    intro dr hdr
    simp [createDeleteRecords_ops _ _ dr hdr]
  have hdelS : (createDeleteRecords
      (detectDeletesSet (dedupPy (truthyBks incoming)) (dedupPy (truthyBks stored)))
      (buildStoredMap stored)).filter
        (fun dr => decide (dr.operation = DeltaOp.SKIP)) = [] := by
    apply List.filter_eq_nil_iff.2
    intro dr hdr
    simp [createDeleteRecords_ops _ _ dr hdr]
  have hbatchD : batch.filter (fun dr => decide (dr.operation = DeltaOp.DELETE)) = [] := by
    apply List.filter_eq_nil_iff.2
    intro dr hdr
    simp [hops dr hdr]
  refine ⟨_, m, hdd, ?_, ?_⟩
  · -- bucket counts
    simp only [categorize, List.filter_append, List.length_append, hdelI, hdelU, hdelS,
      hbatchD, List.length_nil]
    have hsum := filters_ius_length hops
    have hlen : batch.length = incoming.length := by
      have := congrArg List.length hbks
      simpa using this
    have hfd : (List.filter (fun dr => decide (dr.operation = DeltaOp.DELETE))
        (createDeleteRecords
          (detectDeletesSet (dedupPy (truthyBks incoming)) (dedupPy (truthyBks stored)))
          (buildStoredMap stored))).length ≤
        (createDeleteRecords
          (detectDeletesSet (dedupPy (truthyBks incoming)) (dedupPy (truthyBks stored)))
          (buildStoredMap stored)).length := List.length_filter_le _ _
    have hdellen : (createDeleteRecords
        (detectDeletesSet (dedupPy (truthyBks incoming)) (dedupPy (truthyBks stored)))
        (buildStoredMap stored)).length ≤ stored.length := by
      calc (createDeleteRecords _ _).length
          ≤ (detectDeletesSet (dedupPy (truthyBks incoming))
              (dedupPy (truthyBks stored))).length := List.length_filterMap_le _ _
        _ ≤ (dedupPy (truthyBks stored)).length := List.length_filter_le _ _
        _ ≤ (truthyBks stored).length := dedupPyAux_length_le _ _
        _ ≤ stored.length := List.length_filterMap_le _ _
    omega
  · -- BK-set equality
    intro h
    simp only [categorize, List.filter_append, hdelI, hdelU, hdelS, List.append_nil]
    constructor
    · intro hmem
      obtain ⟨dr, hdin, hbkd⟩ := List.mem_map.1 hmem
      have hd : dr ∈ batch := by
        rcases List.mem_append.1 hdin with h1 | h1
        · rcases List.mem_append.1 h1 with h2 | h2
          · exact (List.mem_filter.1 h2).1
          · exact (List.mem_filter.1 h2).1
        · exact (List.mem_filter.1 h1).1
      have hmm : dr.bkHash ∈ batch.map DeltaRec.bkHash := List.mem_map_of_mem _ hd
      rw [hbks] at hmm
      obtain ⟨r, hr, hrk⟩ := List.mem_map.1 hmm
      exact ⟨r, hr, by rw [hrk, hbkd]⟩
    · rintro ⟨r, hr, hrk⟩
      have hmm : pyGet r "erp_key_hash" ∈ incoming.map (fun r => pyGet r "erp_key_hash") :=
        List.mem_map_of_mem _ hr
      rw [← hbks] at hmm
      obtain ⟨dr, hd, hbkd⟩ := List.mem_map.1 hmm
      have hop := hops dr hd
      apply List.mem_map.2
      refine ⟨dr, ?_, by rw [hbkd, hrk]⟩
      cases hcase : dr.operation with
      | INSERT =>
          exact List.mem_append_left _
            (List.mem_append_left _ (List.mem_filter.2 ⟨hd, by simp [hcase]⟩))
      | UPDATE =>
          exact List.mem_append_left _
            (List.mem_append_right _ (List.mem_filter.2 ⟨hd, by simp [hcase]⟩))
      | SKIP =>
          exact List.mem_append_right _ (List.mem_filter.2 ⟨hd, by simp [hcase]⟩)
      | DELETE => exact absurd hcase hop

/-- Witness for the amended C4: two incoming records (one new, one matching
a stored record) and one extra stored record; the run succeeds with the
claimed bucket bounds and BK-set equality. -/
theorem claim_C4_bucket_partition_amended_witness :
    ∃ cat m, detectDelta (fun _ _ => 0) .auto
        [[("erp_key_hash", PyVal.str "a"), ("erp_data_hash", PyVal.str "d1")],
         [("erp_key_hash", PyVal.str "b"), ("erp_data_hash", PyVal.str "d2")]]
        [[("erp_key_hash", PyVal.str "b"), ("erp_data_hash", PyVal.str "d2")],
         [("erp_key_hash", PyVal.str "c"), ("erp_data_hash", PyVal.str "d3")]] =
          .ok (cat, m)
      ∧ cat.insert.length + cat.update.length + cat.skip.length + cat.delete.length ≤ 4
      ∧ ∀ h, h ∈ (cat.insert ++ cat.update ++ cat.skip).map DeltaRec.bkHash ↔
          ∃ r ∈ [[("erp_key_hash", PyVal.str "a"), ("erp_data_hash", PyVal.str "d1")],
                 [("erp_key_hash", PyVal.str "b"), ("erp_data_hash", PyVal.str "d2")]],
            pyGet r "erp_key_hash" = h :=
  claim_C4_bucket_partition_amended (fun _ _ => 0) .auto
    [[("erp_key_hash", PyVal.str "a"), ("erp_data_hash", PyVal.str "d1")],
     [("erp_key_hash", PyVal.str "b"), ("erp_data_hash", PyVal.str "d2")]]
    [[("erp_key_hash", PyVal.str "b"), ("erp_data_hash", PyVal.str "d2")],
     [("erp_key_hash", PyVal.str "c"), ("erp_data_hash", PyVal.str "d3")]]
    (by
      intro r hr
      fin_cases hr
      · exact ⟨⟨"a", rfl, by decide⟩, ⟨"d1", rfl, by decide⟩⟩
      · exact ⟨⟨"b", rfl, by decide⟩, ⟨"d2", rfl, by decide⟩⟩)
    (by
      intro r hr
      fin_cases hr
      · exact ⟨"d2", rfl⟩
      · exact ⟨"d3", rfl⟩)

/-! ## Sync window (`services/scheduler/scheduler.py`, `routers/schedule_router.py`)

`BackgroundScheduler._is_within_window` compares `datetime.time` values.
The schedule's window bounds are stored and parsed at second resolution
(`HH:MM[:SS]`), so times are modelled as hour/minute/second triples with
Python's tuple comparison; `23:59:59` is the greatest element at this
resolution. -/

/-- A `datetime.time` at the second resolution of the stored windows. -/
structure PyTime where
  hour : Nat
  minute : Nat
  second : Nat
  deriving DecidableEq, Repr

/-- Python `time <= time` (lexicographic on hour, minute, second). -/
def timeLe (a b : PyTime) : Bool :=
  decide (a.hour < b.hour) ||
    (decide (a.hour = b.hour) &&
      (decide (a.minute < b.minute) ||
        (decide (a.minute = b.minute) && decide (a.second ≤ b.second))))

/-- A valid time of day. -/
def timeValid (t : PyTime) : Prop := t.hour ≤ 23 ∧ t.minute ≤ 59 ∧ t.second ≤ 59

instance : DecidablePred timeValid := fun t => by
  unfold timeValid; infer_instance

/-- `BackgroundScheduler._is_within_window` (lines 432-452). -/
def isWithinWindow (current windowStart windowEnd : PyTime) : Bool :=
  if timeLe windowStart windowEnd then
    timeLe windowStart current && timeLe current windowEnd
  else
    timeLe windowStart current || timeLe current windowEnd

/-- The window check of `trigger_sync` (`schedule_router.py` lines 366-390):
skipped entirely when `force` is true, otherwise the same same-day/overnight
formula as the scheduler's predicate. -/
def triggerWindowAllows (force : Bool) (current windowStart windowEnd : PyTime) :
    Bool :=
  if force then true
  else if timeLe windowStart windowEnd then
    timeLe windowStart current && timeLe current windowEnd
  else
    timeLe windowStart current || timeLe current windowEnd

theorem timeLe_refl (t : PyTime) : timeLe t t = true := by
  simp [timeLe]

theorem timeLe_min (t : PyTime) : timeLe ⟨0, 0, 0⟩ t = true := by
  simp only [timeLe]
  rcases Nat.eq_zero_or_pos t.hour with h | h
  · rcases Nat.eq_zero_or_pos t.minute with h2 | h2
    · simp [h, h2]
    · simp [h, h2]
  · simp [h]

theorem timeLe_max {t : PyTime} (h : timeValid t) : timeLe t ⟨23, 59, 59⟩ = true := by
  obtain ⟨h1, h2, h3⟩ := h
  simp only [timeLe]
  rcases Nat.lt_or_ge t.hour 23 with hh | hh
  · simp [hh]
  · have : t.hour = 23 := by omega
    rcases Nat.lt_or_ge t.minute 59 with hm | hm
    · simp [this, hm]
    · have hm2 : t.minute = 59 := by omega
      simp [this, hm2, h3]

/-- **C7.** For every current time and window bounds: when `start <= end`
the in-window predicate is true iff `start <= now <= end`; when
`start > end` (overnight wrap) it is true iff `now >= start` or
`now <= end`, i.e. iff `now ∈ [start, 23:59:59] ∪ [00:00:00, end]` (at the
second resolution of the stored windows); and the manual trigger's window
check is exactly `force || in-window`. -/
theorem claim_C7_window_predicate (now windowStart windowEnd : PyTime)
    (hnow : timeValid now) :
    (timeLe windowStart windowEnd = true →
      (isWithinWindow now windowStart windowEnd = true ↔
        (timeLe windowStart now = true ∧ timeLe now windowEnd = true)))
    ∧ (timeLe windowStart windowEnd = false →
      (isWithinWindow now windowStart windowEnd = true ↔
        (timeLe windowStart now = true ∨ timeLe now windowEnd = true)))
    ∧ (timeLe windowStart windowEnd = false →
      (isWithinWindow now windowStart windowEnd = true ↔
        ((timeLe windowStart now = true ∧ timeLe now ⟨23, 59, 59⟩ = true) ∨
         (timeLe ⟨0, 0, 0⟩ now = true ∧ timeLe now windowEnd = true))))
    ∧ (∀ force, triggerWindowAllows force now windowStart windowEnd =
        (force || isWithinWindow now windowStart windowEnd)) := by
  refine ⟨?_, ?_, ?_, ?_⟩
  · intro hle
    simp [isWithinWindow, hle]
  · intro hgt
    simp [isWithinWindow, hgt]
  · intro hgt
    simp only [isWithinWindow, hgt, Bool.false_eq_true, if_false, Bool.or_eq_true]
    constructor
    · rintro (h | h)
      · exact Or.inl ⟨h, timeLe_max hnow⟩
      · exact Or.inr ⟨timeLe_min now, h⟩
    · rintro (⟨h, _⟩ | ⟨_, h⟩)
      · exact Or.inl h
      · exact Or.inr h
  · intro force
    cases force with
    | true => rfl
    | false =>
        simp [triggerWindowAllows, isWithinWindow]

/-- Witness for C7 at the spec's own overnight example: window 19:00-07:00,
now 02:30 (in window). -/
theorem claim_C7_window_predicate_witness :
    (timeLe ⟨19, 0, 0⟩ ⟨7, 0, 0⟩ = true →
      (isWithinWindow ⟨2, 30, 0⟩ ⟨19, 0, 0⟩ ⟨7, 0, 0⟩ = true ↔
        (timeLe ⟨19, 0, 0⟩ ⟨2, 30, 0⟩ = true ∧ timeLe ⟨2, 30, 0⟩ ⟨7, 0, 0⟩ = true)))
    ∧ (timeLe ⟨19, 0, 0⟩ ⟨7, 0, 0⟩ = false →
      (isWithinWindow ⟨2, 30, 0⟩ ⟨19, 0, 0⟩ ⟨7, 0, 0⟩ = true ↔
        (timeLe ⟨19, 0, 0⟩ ⟨2, 30, 0⟩ = true ∨ timeLe ⟨2, 30, 0⟩ ⟨7, 0, 0⟩ = true)))
    ∧ (timeLe ⟨19, 0, 0⟩ ⟨7, 0, 0⟩ = false →
      (isWithinWindow ⟨2, 30, 0⟩ ⟨19, 0, 0⟩ ⟨7, 0, 0⟩ = true ↔
        ((timeLe ⟨19, 0, 0⟩ ⟨2, 30, 0⟩ = true ∧ timeLe ⟨2, 30, 0⟩ ⟨23, 59, 59⟩ = true) ∨
         (timeLe ⟨0, 0, 0⟩ ⟨2, 30, 0⟩ = true ∧ timeLe ⟨2, 30, 0⟩ ⟨7, 0, 0⟩ = true))))
    ∧ (∀ force, triggerWindowAllows force ⟨2, 30, 0⟩ ⟨19, 0, 0⟩ ⟨7, 0, 0⟩ =
        (force || isWithinWindow ⟨2, 30, 0⟩ ⟨19, 0, 0⟩ ⟨7, 0, 0⟩)) :=
  claim_C7_window_predicate ⟨2, 30, 0⟩ ⟨19, 0, 0⟩ ⟨7, 0, 0⟩ (by decide)

/-! ## Failed-record retry selection (`repositories/failed_record_repository.py`)

`get_retryable_records` runs
`SELECT * FROM failed_records WHERE retry_count < :max_retries
 ORDER BY created_at LIMIT :limit` — note: no `resolved_at IS NULL`
condition, although the schema has the nullable `resolved_at` column (with a
partial index `WHERE resolved_at IS NULL`). -/

/-- A `failed_records` row (the columns the retry query touches; `resolved_at`
and `created_at` as abstract instants). -/
structure FailedRecord where
  uid : Nat
  retryCount : Nat
  maxRetriesCol : Nat
  resolvedAt : Option Nat
  createdAt : Nat
  deriving DecidableEq, Repr

/-- Sort relation of `ORDER BY created_at`. -/
def createdLeRel (a b : FailedRecord) : Prop := a.createdAt ≤ b.createdAt

instance : DecidableRel createdLeRel := fun a b => by
  unfold createdLeRel; infer_instance

instance : IsTotal FailedRecord createdLeRel :=
  ⟨fun a b => Nat.le_total a.createdAt b.createdAt⟩

instance : IsTrans FailedRecord createdLeRel :=
  ⟨fun _ _ _ => Nat.le_trans⟩

/-- `FailedRecordRepository.get_retryable_records` over a store of rows:
filter `retry_count < max_retries`, order by `created_at`, truncate to
`limit`.  (SQL leaves the order of `created_at` ties unspecified; the stable
sort determinizes it.) -/
def getRetryableRecords (maxRetries : Nat) (limit : Nat)
    (store : List FailedRecord) : List FailedRecord :=
  (List.insertionSort createdLeRel
    (store.filter (fun r => decide (r.retryCount < maxRetries)))).take limit

/-- Retryability exactly as the claim and the spec define it:
`retry_count < max_retries` and `resolved_at is null`. -/
def retryableSpec (maxRetries : Nat) (r : FailedRecord) : Bool :=
  decide (r.retryCount < maxRetries) && decide (r.resolvedAt = none)

/-- **C8 (counterexample).** A store holding one record that is already
resolved (`resolved_at` set) with `retry_count < max_retries`: the query
returns it anyway — the selection is not the retryable set, and a resolved
record is returned for retry. -/
theorem claim_C8_retry_query_counterexample :
    (∃ r, r ∈ getRetryableRecords 3 100 [⟨1, 0, 3, some 5, 10⟩]
      ∧ r.resolvedAt ≠ none ∧ r.retryCount < 3)
    ∧ getRetryableRecords 3 100 [⟨1, 0, 3, some 5, 10⟩] ≠
        [⟨1, 0, 3, some 5, 10⟩].filter (retryableSpec 3) :=
  ⟨⟨⟨1, 0, 3, some 5, 10⟩, by decide, by decide, by decide⟩, by decide⟩

/-- **C8 (amended).** The records selected for retry are exactly the
earliest-created at most `limit` records with `retry_count < max_retries`:
every selected record satisfies `retry_count < max_retries`; when at most
`limit` rows qualify, the selection is exactly the set of qualifying rows;
and the selection is ordered by `created_at`.  The `resolved_at` column is
not consulted, so a resolved record with `retry_count < max_retries` is
selected (the schema's partial index `WHERE resolved_at IS NULL` suggests
the filter was intended). -/
theorem claim_C8_retry_query_amended (maxRetries limit : Nat)
    (store : List FailedRecord) :
    (∀ r ∈ getRetryableRecords maxRetries limit store, r.retryCount < maxRetries)
    ∧ ((store.filter (fun r => decide (r.retryCount < maxRetries))).length ≤ limit →
        ∀ r, r ∈ getRetryableRecords maxRetries limit store ↔
          r ∈ store ∧ r.retryCount < maxRetries)
    ∧ List.Sorted createdLeRel (getRetryableRecords maxRetries limit store) := by
  refine ⟨?_, ?_, ?_⟩
  · intro r hr
    have h1 : r ∈ List.insertionSort createdLeRel
        (store.filter (fun r => decide (r.retryCount < maxRetries))) :=
      List.mem_of_mem_take hr
    have h2 := (List.mem_insertionSort createdLeRel).1 h1
    simpa using (List.mem_filter.1 h2).2
  · intro hlen r
    have hslen : (List.insertionSort createdLeRel
        (store.filter (fun r => decide (r.retryCount < maxRetries)))).length ≤ limit := by
      rwa [(List.perm_insertionSort createdLeRel _).length_eq]
    unfold getRetryableRecords
    rw [List.take_of_length_le hslen]
    rw [List.mem_insertionSort createdLeRel, List.mem_filter]
    simp
  · exact List.Pairwise.sublist (List.take_sublist _ _)
      (List.sorted_insertionSort createdLeRel _)

/-- Witness for the amended C8: three rows (one exhausted, two eligible with
out-of-order creation instants); the inner bound hypothesis is discharged
concretely. -/
theorem claim_C8_retry_query_amended_witness :
    (∀ r ∈ getRetryableRecords 3 100
        [⟨1, 5, 3, none, 30⟩, ⟨2, 1, 3, none, 20⟩, ⟨3, 0, 3, none, 10⟩],
      r.retryCount < 3)
    ∧ (∀ r, r ∈ getRetryableRecords 3 100
          [⟨1, 5, 3, none, 30⟩, ⟨2, 1, 3, none, 20⟩, ⟨3, 0, 3, none, 10⟩] ↔
        r ∈ [⟨1, 5, 3, none, 30⟩, ⟨2, 1, 3, none, 20⟩, ⟨3, 0, 3, none, 10⟩]
          ∧ r.retryCount < 3)
    ∧ List.Sorted createdLeRel (getRetryableRecords 3 100
        [⟨1, 5, 3, none, 30⟩, ⟨2, 1, 3, none, 20⟩, ⟨3, 0, 3, none, 10⟩]) :=
  ⟨(claim_C8_retry_query_amended 3 100 _).1,
   (claim_C8_retry_query_amended 3 100 _).2.1 (by decide),
   (claim_C8_retry_query_amended 3 100 _).2.2⟩

/-! ## Normalization pipeline (`services/normalization/`)

`NormalizationEngine.normalize_row` runs five layers: type coercion,
string normalization, numeric normalization, date/time normalization and
field mapping.  Date/time parsing (the strptime format ladder plus
dateutil) is third-party and is the parameter `parseDT`; `datetime`,
`date`, `bytes` and `Decimal` objects are outside the `PyVal` universe, so
the isinstance branches for them do not arise.  Where layer 1 would build
a `Decimal` from a string rejected by `int`/`float`, the model takes the
code's exception fallback `str(value)`, which agrees except on
`Decimal`-only literals such as `"sNaN"`; digit-group underscores of
Python numeric literals are likewise not modelled.  ASCII models Python's
Unicode case mapping and character classes. -/

/-- Control characters removed by layer 2 (`CONTROL_CHARS_PATTERN`):
`\x00`-`\x08`, `\x0B`, `\x0C`, `\x0E`-`\x1F`, `\x7F`; tab, LF and CR
survive. -/
def isCtrl (c : Char) : Bool :=
  c.toNat ≤ 0x08 || c.toNat = 0x0b || c.toNat = 0x0c ||
    (0x0e ≤ c.toNat && c.toNat ≤ 0x1f) || c.toNat = 0x7f

/-- `CONTROL_CHARS_PATTERN.sub('', value)` (layer 2, step 3). -/
def removeCtrl (l : List Char) : List Char := l.filter (fun c => !isCtrl c)

/-- `value.replace('\r\n', '\n')` (layer 2, step 4, first half). -/
def replCRLF : List Char → List Char
  | [] => []
  | [c] => [c]
  | c :: d :: t =>
    if c = '\r' ∧ d = '\n' then '\n' :: replCRLF t
    else c :: replCRLF (d :: t)

/-- `value.replace('\r', '\n')` (layer 2, step 4, second half). -/
def replCR (l : List Char) : List Char :=
  l.map (fun c => if c = '\r' then '\n' else c)

/-- `value.split('\n')`. -/
def splitNl : List Char → List (List Char)
  | [] => [[]]
  | c :: t =>
    if c = '\n' then [] :: splitNl t
    else
      match splitNl t with
      | [] => [[c]]
      | l :: ls => (c :: l) :: ls

/-- `'\n'.join(lines)`. -/
def joinNl : List (List Char) → List Char
  | [] => []
  | [l] => l
  | l :: ls => l ++ '\n' :: joinNl ls

mutual

/-- `MULTIPLE_WHITESPACE_PATTERN.sub(' ', line)`: replace every maximal
whitespace run by a single space. -/
def collapseWS : List Char → List Char
  | [] => []
  | c :: t => if isPyWS c then ' ' :: skipWS t else c :: collapseWS t

/-- Rest of a whitespace run being collapsed. -/
def skipWS : List Char → List Char
  | [] => []
  | c :: t => if isPyWS c then skipWS t else c :: collapseWS t

end

/-- One line of layer 2, step 5: collapse whitespace runs, then `strip()`. -/
def lineNorm (l : List Char) : List Char := stripWS (collapseWS l)

/-- Steps 5-6 of `normalize_string` after the per-line pass: `None` when no
line survived, rejoin with `\n`, and the final
`if value and not value.strip()` guard. -/
def normStep2 (kept : List (List Char)) : Option String :=
  if kept = [] then none
  else if joinNl kept ≠ [] ∧ stripWS (joinNl kept) = [] then none
  else some (String.mk (joinNl kept))

/-- `StringNormalizationLayer.normalize_string` (layer 2, lines 28-75) on a
non-None string: strip; empty to `None`; drop control characters;
normalize line endings; collapse and strip each line, dropping lines that
become empty; rejoin with `\n`; empty again to `None`. -/
def normalizeString (s : String) : Option String :=
  if stripWS s.data = [] then none
  else normStep2
    (((splitNl (replCR (replCRLF (removeCtrl (stripWS s.data))))).map
      lineNorm).filter (fun l => !l.isEmpty))

/-- Layer 2 on one field value: only `str` values are touched
(`isinstance(field_value, str)` in `StringNormalizationLayer.normalize_row`),
and a `None` result is stored as Python `None`. -/
def l2val : PyVal → PyVal
  | .str s =>
    match normalizeString s with
    | none => .null
    | some t => .str t
  | v => v

/-- Python `str.upper()` (ASCII). -/
def pyUpper (s : String) : String := String.mk (s.data.map Char.toUpper)

/-- Python `str.lower()` (ASCII). -/
def pyLower (s : String) : String := String.mk (s.data.map Char.toLower)

/-- Oracle string types (layer 1, line 51). -/
def oracleStringTypes : List String :=
  ["VARCHAR2", "CHAR", "CLOB", "NVARCHAR2", "NCHAR", "NCLOB"]

/-- Oracle numeric types (layer 1, line 56). -/
def oracleNumberTypes : List String :=
  ["NUMBER", "NUMERIC", "DECIMAL", "INTEGER", "INT", "FLOAT"]

/-- Oracle date/time types (layer 1, line 82). -/
def oracleDateTypes : List String :=
  ["DATE", "TIMESTAMP", "TIMESTAMP WITH TIME ZONE",
   "TIMESTAMP WITH LOCAL TIME ZONE"]

/-- Oracle binary types (layer 1, line 93). -/
def oracleBinaryTypes : List String := ["RAW", "LONG RAW", "BLOB"]

/-- Accumulate a decimal digit run. -/
def digitsToNatAux (acc : Nat) : List Char → Nat
  | [] => acc
  | c :: t => digitsToNatAux (acc * 10 + (c.toNat - 48)) t

/-- Python `int(s)` on an already-stripped string: an optional sign, then a
nonempty digit run. -/
def parsePyIntL : List Char → Option Int
  | '+' :: ds =>
    if ds ≠ [] ∧ ds.all Char.isDigit then some (digitsToNatAux 0 ds) else none
  | '-' :: ds =>
    if ds ≠ [] ∧ ds.all Char.isDigit then some (-(digitsToNatAux 0 ds : Int))
    else none
  | ds =>
    if ds ≠ [] ∧ ds.all Char.isDigit then some (digitsToNatAux 0 ds) else none

/-- Python `int(s)` on a string. -/
def parsePyInt (s : String) : Option Int := parsePyIntL s.data

/-- Split off the leading digit run. -/
def spanDigits : List Char → List Char × List Char
  | [] => ([], [])
  | c :: t =>
    if c.isDigit then
      let p := spanDigits t
      (c :: p.1, p.2)
    else ([], c :: t)

/-- Unsigned float mantissa `d*[.d*]` with at least one digit, exactly over
the rationals. -/
def parseMantissa (l : List Char) : Option Rat :=
  let p := spanDigits l
  match p.2 with
  | [] => if p.1 ≠ [] then some ((digitsToNatAux 0 p.1 : Int) : Rat) else none
  | '.' :: rest =>
    let q := spanDigits rest
    if q.2 = [] ∧ (p.1 ≠ [] ∨ q.1 ≠ []) then
      some ((digitsToNatAux 0 p.1 : Int)
        + ((digitsToNatAux 0 q.1 : Int) : Rat) / ((10 : Rat) ^ q.1.length))
    else none
  | _ => none

/-- Split a float literal body at the exponent marker `e`/`E`, if any. -/
def splitExp : List Char → List Char × Option (List Char)
  | [] => ([], none)
  | c :: t =>
    if c = 'e' ∨ c = 'E' then ([], some t)
    else
      let p := splitExp t
      (c :: p.1, p.2)

/-- Python `float(s)` on an already-stripped string, modelled exactly over
the rationals (the binary-double rounding and the `inf`/`nan` literals are
idealised away). -/
def parsePyFloat (s : String) : Option Rat :=
  let sb : Rat × List Char :=
    match s.data with
    | '+' :: r => (1, r)
    | '-' :: r => (-1, r)
    | r => (1, r)
  let me := splitExp sb.2
  match parseMantissa me.1 with
  | none => none
  | some m =>
    match me.2 with
    | none => some (sb.1 * m)
    | some ex =>
      match parsePyIntL ex with
      | none => none
      | some e =>
        if 0 ≤ e then some (sb.1 * m * (10 : Rat) ^ e.toNat)
        else some (sb.1 * m / (10 : Rat) ^ (-e).toNat)

/-- `TypeCoercionLayer.coerce_value` (layer 1, lines 20-118).  With no
declared Oracle type the type is inferred from the Python type; Python
`bool` is an `int` subclass, so it infers `NUMBER` and `int(True) = 1`. -/
def coerceValue (v : PyVal) (otype : Option String) : PyVal :=
  match v with
  | .null => .null
  | _ =>
    let t := pyUpper
      (match otype with
       | some t => t
       | none =>
         match v with
         | .str _ => "VARCHAR2"
         | .int _ => "NUMBER"
         | .float _ => "NUMBER"
         | .bool _ => "NUMBER"
         | _ => "VARCHAR2")
    if oracleStringTypes.contains t then
      if truthy v then
        let r := pyStripStr (pyStr v)
        if r = "" then .null else .str r
      else .null
    else if oracleNumberTypes.contains t then
      match v with
      | .bool b => .int (if b then 1 else 0)
      | .int n => .int n
      | .float q => if q.den = 1 then .int q.num else .float q
      | .str s =>
        let c := String.mk ((stripWS s.data).filter (fun ch => ch != ','))
        if c = "" then .null
        else if ¬ c.data.contains '.' ∧ ¬ c.data.contains 'e'
            ∧ ¬ c.data.contains 'E' then
          match parsePyInt c with
          | some n => .int n
          | none => .str c
        else
          match parsePyFloat c with
          | some q => .float q
          | none => .str c
      | w => .str (pyStr w)
    else if oracleDateTypes.contains t then
      match v with
      | .str s => .str (pyStripStr s)
      | w => .str (pyStr w)
    else if oracleBinaryTypes.contains t then
      .str (pyStr v)
    else if t = "BOOLEAN" then
      match v with
      | .bool b => .bool b
      | .str s =>
        let u := pyStripStr (pyUpper s)
        if u ∈ ["TRUE", "T", "YES", "Y", "1"] then .bool true
        else if u ∈ ["FALSE", "F", "NO", "N", "0"] then .bool false
        else .bool (truthy (.str s))
      | w => .bool (truthy w)
    else
      .str (pyStr v)

/-- The string cleaning of `normalize_numeric` (lines 42-54): strip, drop
thousand-separator commas, drop currency symbols, strip again. -/
def numClean (s : String) : List Char :=
  stripWS (((stripWS s.data).filter (fun ch => ch != ',')).filter
    (fun ch => !(ch == '$' || ch == '€' || ch == '£')))

/-- The accounting-parenthesis rule of `normalize_numeric` (lines 57-58):
`(x)` reads as `-x`. -/
def numParen (l : List Char) : List Char :=
  match l with
  | '(' :: rest =>
    if rest.getLast? = some ')' then '-' :: rest.dropLast else l
  | _ => l

/-- `NumericNormalizationLayer.normalize_numeric` (layer 3, lines 22-78):
numbers pass through, strings are cleaned (thousand separators, currency
symbols, accounting parentheses) and parsed, anything else becomes
`None`. -/
def normalizeNumeric (v : PyVal) : PyVal :=
  match v with
  | .null => .null
  | .bool b => .bool b
  | .int n => .int n
  | .float q => .float q
  | .str s =>
    if stripWS s.data = [] then .null
    else if (numParen (numClean s)).contains '.'
        ∨ (numParen (numClean s)).contains 'e'
        ∨ (numParen (numClean s)).contains 'E' then
      match parsePyFloat (String.mk (numParen (numClean s))) with
      | some q => if q.den = 1 then .int q.num else .float q
      | none => .null
    else
      match parsePyInt (String.mk (numParen (numClean s))) with
      | some n => .int n
      | none => .null
  | _ => .null

/-- Is the value an `int`/`float` instance?  Python `bool` is an `int`
subclass and passes the isinstance check. -/
def isNumVal : PyVal → Bool
  | .bool _ => true
  | .int _ => true
  | .float _ => true
  | _ => false

/-- The layer-3 auto-detection test on strings
(`NumericNormalizationLayer.normalize_row`, line 132):
`value.strip().replace(',', '').replace('.', '').replace('-', '').isdigit()`. -/
def digitTest (s : String) : Bool :=
  let l := (stripWS s.data).filter (fun ch => ch != ',' && ch != '.' && ch != '-')
  !l.isEmpty && l.all Char.isDigit

/-- One field of `NumericNormalizationLayer.normalize_row` (lines 108-138). -/
def l3val (numericFields : List String) (k : String) (v : PyVal) : PyVal :=
  if numericFields.contains k || isNumVal v then normalizeNumeric v
  else
    match v with
    | .str s => if digitTest s then normalizeNumeric (.str s) else .str s
    | w => w

/-- `DateTimeNormalizationLayer.normalize_datetime` (layer 4, lines 44-108)
on the `PyVal` universe: the whole parse ladder (strptime formats, then
dateutil) is the parameter `parseDT`; an unparseable string is returned
stripped, and a non-string is stringified. -/
def normalizeDatetimeVal (parseDT : String → Option String) : PyVal → PyVal
  | .null => .null
  | .str s =>
    let v := pyStripStr s
    if v = "" then .null
    else
      match parseDT v with
      | some iso => .str iso
      | none => .str v
  | w => .str (pyStr w)

/-- Characters before the first occurrence of `stop`. -/
def takeUntil (stop : Char) : List Char → List Char
  | [] => []
  | c :: t => if c = stop then [] else c :: takeUntil stop t

/-- `DateTimeNormalizationLayer.normalize_date_only` (lines 110-133): the
part before a `T` or a space of the normalized datetime. -/
def normalizeDateOnlyVal (parseDT : String → Option String) (v : PyVal) :
    PyVal :=
  match normalizeDatetimeVal parseDT v with
  | .null => .null
  | .str s =>
    if s.data.contains 'T' then .str (String.mk (takeUntil 'T' s.data))
    else if s.data.contains ' ' then .str (String.mk (takeUntil ' ' s.data))
    else .str s
  | w => w

/-- One field of `DateTimeNormalizationLayer.normalize_row` (lines 135-170);
`datetime`/`date` objects are outside the `PyVal` universe, so the
isinstance auto-detect branch does not arise. -/
def l4val (parseDT : String → Option String)
    (dtFields dateFields : List String) (k : String) (v : PyVal) : PyVal :=
  if dtFields.contains k then normalizeDatetimeVal parseDT v
  else if dateFields.contains k then normalizeDateOnlyVal parseDT v
  else v

/-- One field-mapping configuration dict (layer 5, lines 26-37); absent
keys are `none`, and the constructor applies Python truthiness when
building its lookup maps. -/
structure FieldMapping where
  source_field : Option String
  target_field : Option String
  transformation : Option String
  default_value : Option PyVal
  is_required : Bool

/-- Python dict assignment `d[k] = v`: update in place, else append. -/
def dictSet {α : Type} : List (String × α) → String → α → List (String × α)
  | [], k, v => [(k, v)]
  | (k0, v0) :: t, k, v =>
    if k0 = k then (k0, v) :: t else (k0, v0) :: dictSet t k v

/-- The `_source_to_target` map built by `FieldMappingLayer.__init__`
(lines 46-60): mappings with truthy source and target, later entries
overwriting earlier ones. -/
def sourceToTarget (ms : List FieldMapping) : List (String × String) :=
  ms.foldl
    (fun acc m =>
      match m.source_field, m.target_field with
      | some s, some t => if s ≠ "" ∧ t ≠ "" then dictSet acc s t else acc
      | _, _ => acc)
    []

/-- The `_transformations` map of `FieldMappingLayer.__init__`: a truthy
transformation under a truthy source/target pair. -/
def transformsOf (ms : List FieldMapping) : List (String × String) :=
  ms.foldl
    (fun acc m =>
      match m.source_field, m.target_field, m.transformation with
      | some s, some t, some tr =>
        if s ≠ "" ∧ t ≠ "" ∧ tr ≠ "" then dictSet acc s tr else acc
      | _, _, _ => acc)
    []

/-- The `_default_values` map of `FieldMappingLayer.__init__`: a truthy
default under a truthy source/target pair (a falsy default such as `0` or
`""` is silently ignored by the `if mapping["default_value"]` guard). -/
def defaultsOf (ms : List FieldMapping) : List (String × PyVal) :=
  ms.foldl
    (fun acc m =>
      match m.source_field, m.target_field, m.default_value with
      | some s, some t, some d =>
        if s ≠ "" ∧ t ≠ "" ∧ truthy d then dictSet acc s d else acc
      | _, _, _ => acc)
    []

/-- Python `str.title()` (ASCII): uppercase a letter after a non-letter,
lowercase a letter after a letter. -/
def pyTitleAux : Bool → List Char → List Char
  | _, [] => []
  | prevAlpha, c :: t =>
    (if c.isAlpha then (if prevAlpha then c.toLower else c.toUpper) else c)
      :: pyTitleAux c.isAlpha t

/-- Python `str.capitalize()` (ASCII). -/
def pyCapitalize (s : String) : String :=
  match s.data with
  | [] => ""
  | c :: t => String.mk (c.toUpper :: t.map Char.toLower)

/-- `FieldMappingLayer.apply_transformation` (lines 62-111): `None` passes
through, names are matched literally, and an unknown name (or `"none"` or
`""`) leaves the value unchanged. -/
def applyTransformation (v : PyVal) (tr : String) : PyVal :=
  if v = .null then .null
  else if tr = "uppercase" then .str (pyUpper (pyStr v))
  else if tr = "lowercase" then .str (pyLower (pyStr v))
  else if tr = "trim" then .str (pyStripStr (pyStr v))
  else if tr = "title_case" then .str (String.mk (pyTitleAux false (pyStr v).data))
  else if tr = "capitalize" then .str (pyCapitalize (pyStr v))
  else if tr = "strip_whitespace" then
    .str (String.mk ((pyStr v).data.filter (fun c => !isPyWS c)))
  else if tr = "remove_special_chars" then
    .str (String.mk ((pyStr v).data.filter (fun c => c.isAlphanum || isPyWS c)))
  else v

/-- The loop body accumulation of `FieldMappingLayer.map_row` (lines
123-139): rename to the target field, apply the configured transformation,
fill the configured default for `None`, and assign into the result dict. -/
def mapRowAux (s2t trs : List (String × String)) (dfs : List (String × PyVal))
    (acc : List (String × PyVal)) : List (String × PyVal) → List (String × PyVal)
  | [] => acc
  | kv :: t =>
    let target := (alookup s2t kv.1).getD kv.1
    let v1 :=
      match alookup trs kv.1 with
      | some tr => applyTransformation kv.2 tr
      | none => kv.2
    let v2 :=
      if v1 = PyVal.null then
        match alookup dfs kv.1 with
        | some d => d
        | none => v1
      else v1
    mapRowAux s2t trs dfs (dictSet acc target v2) t

/-- `FieldMappingLayer.map_row` (lines 113-148); the required-field
validation only logs and is not modelled. -/
def mapRow (ms : List FieldMapping) (row : List (String × PyVal)) :
    List (String × PyVal) :=
  mapRowAux (sourceToTarget ms) (transformsOf ms) (defaultsOf ms) [] row

/-- The configuration of `NormalizationEngine.__init__` (lines 29-57). -/
structure NormConfig where
  fieldMappings : List FieldMapping
  oracleMetadata : List (String × String)
  numericFields : List String
  datetimeFields : List String
  dateFields : List String

/-- The default engine configuration: every argument left `None`. -/
def emptyNormConfig : NormConfig := ⟨[], [], [], [], []⟩

/-- `NormalizationEngine.normalize_row` (engine lines 61-108, with
`track_stages=False`): the five layers in order.  Rows are Python dicts;
the association list mirrors their unique keys, and layers 1-4, which
rebuild the dict under the same field names, are maps over the entries. -/
def normalizeRow (parseDT : String → Option String) (cfg : NormConfig)
    (row : List (String × PyVal)) : List (String × PyVal) :=
  let r1 := row.map
    (fun kv => (kv.1, coerceValue kv.2 (alookup cfg.oracleMetadata kv.1)))
  let r2 := r1.map (fun kv => (kv.1, l2val kv.2))
  let r3 := r2.map (fun kv => (kv.1, l3val cfg.numericFields kv.1 kv.2))
  let r4 := r3.map (fun kv =>
    (kv.1, l4val parseDT cfg.datetimeFields cfg.dateFields kv.1 kv.2))
  mapRow cfg.fieldMappings r4

/-! ### Shape invariants of normalized strings

`normalize_string` output is nonempty, stripped, control-free, CR-free,
and each of its lines is whitespace-collapsed and stripped.  These
predicates and preservation lemmas drive the idempotence proof. -/

/-- No two adjacent whitespace characters. -/
def noWSPair : List Char → Bool
  | a :: b :: t => !(isPyWS a && isPyWS b) && noWSPair (b :: t)
  | _ => true

/-- The first character, if any, is not whitespace. -/
def headNotWS : List Char → Bool
  | [] => true
  | c :: _ => !isPyWS c

/-- The last character, if any, is not whitespace. -/
def lastNotWS : List Char → Bool
  | [] => true
  | [c] => !isPyWS c
  | _ :: t => lastNotWS t

theorem noWSPair_tail {c : Char} {t : List Char} (h : noWSPair (c :: t) = true) :
    noWSPair t = true := by
  cases t with
  | nil => rfl
  | cons b t' => simp only [noWSPair, Bool.and_eq_true] at h; exact h.2

theorem noWSPair_cons_of {a : Char} {t : List Char} (h : noWSPair t = true)
    (h2 : isPyWS a = false ∨ headNotWS t = true) : noWSPair (a :: t) = true := by
  cases t with
  | nil => rfl
  | cons b t' =>
    simp only [noWSPair, Bool.and_eq_true]
    refine ⟨?_, h⟩
    rcases h2 with h2 | h2
    · simp [h2]
    · simp only [headNotWS, Bool.not_eq_true'] at h2
      simp [h2]

theorem lastNotWS_tail {c : Char} {t : List Char} (ht : t ≠ [])
    (h : lastNotWS (c :: t) = true) : lastNotWS t = true := by
  cases t with
  | nil => exact absurd rfl ht
  | cons b t' => exact h

theorem collapse_mem (l : List Char) :
    (∀ c ∈ collapseWS l, c = ' ' ∨ c ∈ l) ∧
      (∀ c ∈ skipWS l, c = ' ' ∨ c ∈ l) := by
  induction l with
  | nil => exact ⟨by simp [collapseWS], by simp [skipWS]⟩
  | cons a t ih =>
    constructor
    · intro c hc
      simp only [collapseWS] at hc
      by_cases hw : isPyWS a
      · rw [if_pos hw] at hc
        rcases List.mem_cons.1 hc with h | h
        · exact Or.inl h
        · rcases ih.2 c h with h2 | h2
          · exact Or.inl h2
          · exact Or.inr (List.mem_cons_of_mem _ h2)
      · rw [if_neg hw] at hc
        rcases List.mem_cons.1 hc with h | h
        · exact Or.inr (h ▸ List.mem_cons_self _ _)
        · rcases ih.1 c h with h2 | h2
          · exact Or.inl h2
          · exact Or.inr (List.mem_cons_of_mem _ h2)
    · intro c hc
      simp only [skipWS] at hc
      by_cases hw : isPyWS a
      · rw [if_pos hw] at hc
        rcases ih.2 c hc with h2 | h2
        · exact Or.inl h2
        · exact Or.inr (List.mem_cons_of_mem _ h2)
      · rw [if_neg hw] at hc
        rcases List.mem_cons.1 hc with h | h
        · exact Or.inr (h ▸ List.mem_cons_self _ _)
        · rcases ih.1 c h with h2 | h2
          · exact Or.inl h2
          · exact Or.inr (List.mem_cons_of_mem _ h2)

theorem collapse_space (l : List Char) :
    (∀ c ∈ collapseWS l, isPyWS c = true → c = ' ') ∧
      (∀ c ∈ skipWS l, isPyWS c = true → c = ' ') := by
  induction l with
  | nil => exact ⟨by simp [collapseWS], by simp [skipWS]⟩
  | cons a t ih =>
    constructor
    · intro c hc hwc
      simp only [collapseWS] at hc
      by_cases hw : isPyWS a
      · rw [if_pos hw] at hc
        rcases List.mem_cons.1 hc with h | h
        · exact h
        · exact ih.2 c h hwc
      · rw [if_neg hw] at hc
        rcases List.mem_cons.1 hc with h | h
        · exact absurd (h ▸ hwc) (by simpa using hw)
        · exact ih.1 c h hwc
    · intro c hc hwc
      simp only [skipWS] at hc
      by_cases hw : isPyWS a
      · rw [if_pos hw] at hc
        exact ih.2 c hc hwc
      · rw [if_neg hw] at hc
        rcases List.mem_cons.1 hc with h | h
        · exact absurd (h ▸ hwc) (by simpa using hw)
        · exact ih.1 c h hwc

theorem collapse_pair (l : List Char) :
    noWSPair (collapseWS l) = true ∧ noWSPair (skipWS l) = true ∧
      headNotWS (skipWS l) = true := by
  induction l with
  | nil => exact ⟨rfl, rfl, rfl⟩
  | cons a t ih =>
    by_cases hw : isPyWS a
    · refine ⟨?_, ?_, ?_⟩
      · show noWSPair (if isPyWS a then ' ' :: skipWS t else a :: collapseWS t) = true
        rw [if_pos hw]
        exact noWSPair_cons_of ih.2.1 (Or.inr ih.2.2)
      · show noWSPair (if isPyWS a then skipWS t else a :: collapseWS t) = true
        rw [if_pos hw]; exact ih.2.1
      · show headNotWS (if isPyWS a then skipWS t else a :: collapseWS t) = true
        rw [if_pos hw]; exact ih.2.2
    · refine ⟨?_, ?_, ?_⟩
      · show noWSPair (if isPyWS a then ' ' :: skipWS t else a :: collapseWS t) = true
        rw [if_neg hw]
        exact noWSPair_cons_of ih.1 (Or.inl (by simpa using hw))
      · show noWSPair (if isPyWS a then skipWS t else a :: collapseWS t) = true
        rw [if_neg hw]
        exact noWSPair_cons_of ih.1 (Or.inl (by simpa using hw))
      · show headNotWS (if isPyWS a then skipWS t else a :: collapseWS t) = true
        rw [if_neg hw]
        simpa [headNotWS] using hw

theorem dropWhile_headNotWS (l : List Char) :
    headNotWS (l.dropWhile isPyWS) = true := by
  induction l with
  | nil => rfl
  | cons a t ih =>
    rw [List.dropWhile_cons]
    by_cases hw : isPyWS a
    · rw [if_pos (by simpa using hw)]; exact ih
    · rw [if_neg (by simpa using hw)]
      simpa [headNotWS] using hw

theorem dropWhile_subWS {c : Char} {l : List Char}
    (h : c ∈ l.dropWhile isPyWS) : c ∈ l := by
  induction l with
  | nil => simp at h
  | cons a t ih =>
    rw [List.dropWhile_cons] at h
    by_cases hw : isPyWS a
    · rw [if_pos (by simpa using hw)] at h
      exact List.mem_cons_of_mem _ (ih h)
    · rw [if_neg (by simpa using hw)] at h
      exact h

theorem dropWhile_pairWS {l : List Char} (h : noWSPair l = true) :
    noWSPair (l.dropWhile isPyWS) = true := by
  induction l with
  | nil => rfl
  | cons a t ih =>
    rw [List.dropWhile_cons]
    by_cases hw : isPyWS a
    · rw [if_pos (by simpa using hw)]
      exact ih (noWSPair_tail h)
    · rw [if_neg (by simpa using hw)]
      exact h

theorem dropWhile_fixWS {l : List Char} (h : headNotWS l = true) :
    l.dropWhile isPyWS = l := by
  cases l with
  | nil => rfl
  | cons a t =>
    rw [List.dropWhile_cons]
    simp only [headNotWS, Bool.not_eq_true'] at h
    rw [if_neg (by simp [h])]

theorem dropTrailWS_cons_nil {t : List Char} (c : Char)
    (he : dropTrailWS t = []) :
    dropTrailWS (c :: t) = if isPyWS c then [] else [c] := by
  unfold dropTrailWS
  rw [he]

theorem dropTrailWS_cons_cons {t r : List Char} (c : Char) {d : Char}
    (he : dropTrailWS t = d :: r) :
    dropTrailWS (c :: t) = c :: d :: r := by
  unfold dropTrailWS
  rw [he]

theorem dt_head (c : Char) (t : List Char) :
    dropTrailWS (c :: t) = [] ∨ ∃ r, dropTrailWS (c :: t) = c :: r := by
  cases he : dropTrailWS t with
  | nil =>
    rw [dropTrailWS_cons_nil c he]
    by_cases hw : isPyWS c
    · exact Or.inl (by rw [if_pos hw])
    · exact Or.inr ⟨[], by rw [if_neg hw]⟩
  | cons d r => exact Or.inr ⟨d :: r, dropTrailWS_cons_cons c he⟩

theorem dt_sub {c : Char} {l : List Char} (h : c ∈ dropTrailWS l) : c ∈ l := by
  induction l with
  | nil => simp [dropTrailWS] at h
  | cons a t ih =>
    cases he : dropTrailWS t with
    | nil =>
      rw [dropTrailWS_cons_nil a he] at h
      by_cases hw : isPyWS a
      · rw [if_pos hw] at h; simp at h
      · rw [if_neg hw] at h
        simp only [List.mem_singleton] at h
        exact h ▸ List.mem_cons_self _ _
    | cons d r =>
      rw [dropTrailWS_cons_cons a he] at h
      rcases List.mem_cons.1 h with h3 | h3
      · exact h3 ▸ List.mem_cons_self _ _
      · exact List.mem_cons_of_mem _ (ih (he ▸ h3))

theorem dt_last (l : List Char) : lastNotWS (dropTrailWS l) = true := by
  induction l with
  | nil => rfl
  | cons a t ih =>
    cases he : dropTrailWS t with
    | nil =>
      rw [dropTrailWS_cons_nil a he]
      by_cases hw : isPyWS a
      · rw [if_pos hw]; rfl
      · rw [if_neg hw]
        simpa [lastNotWS] using hw
    | cons d r =>
      rw [dropTrailWS_cons_cons a he]
      show lastNotWS (d :: r) = true
      exact he ▸ ih

theorem dt_pair {l : List Char} (h : noWSPair l = true) :
    noWSPair (dropTrailWS l) = true := by
  induction l with
  | nil => rfl
  | cons a t ih =>
    cases he : dropTrailWS t with
    | nil =>
      rw [dropTrailWS_cons_nil a he]
      by_cases hw : isPyWS a
      · rw [if_pos hw]; rfl
      · rw [if_neg hw]; rfl
    | cons d r =>
      rw [dropTrailWS_cons_cons a he]
      have hp : noWSPair (d :: r) = true := he ▸ ih (noWSPair_tail h)
      refine noWSPair_cons_of hp ?_
      cases t with
      | nil => simp [dropTrailWS] at he
      | cons b t' =>
        rcases dt_head b t' with h2 | ⟨r2, h2⟩
        · rw [h2] at he; exact absurd he.symm (by simp)
        · rw [h2] at he
          have hdb : d = b := by
            rw [List.cons.injEq] at he
            exact he.1.symm
          simp only [noWSPair, Bool.and_eq_true] at h
          have h1 := h.1
          subst hdb
          by_cases hwa : isPyWS a
          · right
            have hwd : isPyWS d = false := by
              cases hwd : isPyWS d
              · rfl
              · rw [hwa, hwd] at h1; simp at h1
            simp [headNotWS, hwd]
          · exact Or.inl (by simpa using hwa)

theorem dt_headNotWS {l : List Char} (h : headNotWS l = true) :
    headNotWS (dropTrailWS l) = true := by
  cases l with
  | nil => rfl
  | cons a t =>
    rcases dt_head a t with h2 | ⟨r, h2⟩
    · rw [h2]; rfl
    · rw [h2]
      simpa [headNotWS] using h

theorem dt_fix {l : List Char} (h : lastNotWS l = true) : dropTrailWS l = l := by
  induction l with
  | nil => rfl
  | cons a t ih =>
    cases t with
    | nil =>
      have ha : isPyWS a = false := by simpa [lastNotWS] using h
      rw [dropTrailWS_cons_nil a (rfl : dropTrailWS [] = []),
        if_neg (by simp [ha])]
    | cons b t' =>
      have ht : dropTrailWS (b :: t') = b :: t' :=
        ih (lastNotWS_tail (by simp) h)
      rw [dropTrailWS_cons_cons a ht]

theorem strip_headNotWS (l : List Char) : headNotWS (stripWS l) = true :=
  dt_headNotWS (dropWhile_headNotWS l)

theorem strip_last (l : List Char) : lastNotWS (stripWS l) = true :=
  dt_last _

theorem strip_pair {l : List Char} (h : noWSPair l = true) :
    noWSPair (stripWS l) = true :=
  dt_pair (dropWhile_pairWS h)

theorem strip_sub {c : Char} {l : List Char} (h : c ∈ stripWS l) : c ∈ l :=
  dropWhile_subWS (dt_sub h)

theorem strip_fix {l : List Char} (h1 : headNotWS l = true)
    (h2 : lastNotWS l = true) : stripWS l = l := by
  unfold stripWS
  rw [dropWhile_fixWS h1, dt_fix h2]

/-- A list whose whitespace is all single spaces, with no two adjacent and
none at either end, is fixed by whitespace collapsing. -/
theorem collapse_fix {u : List Char}
    (hs : ∀ c ∈ u, isPyWS c = true → c = ' ')
    (hp : noWSPair u = true) (hl : lastNotWS u = true) :
    collapseWS u = u ∧ (headNotWS u = true → skipWS u = u) := by
  induction u with
  | nil => exact ⟨rfl, fun _ => rfl⟩
  | cons c t ih =>
    have hst : ∀ x ∈ t, isPyWS x = true → x = ' ' :=
      fun x hx => hs x (List.mem_cons_of_mem _ hx)
    by_cases hw : isPyWS c
    · have hc : c = ' ' := hs c (List.mem_cons_self _ _) hw
      cases t with
      | nil => simp [lastNotWS, hw] at hl
      | cons b t' =>
        have hb : isPyWS b = false := by
          simp only [noWSPair, Bool.and_eq_true] at hp
          cases hwb : isPyWS b
          · rfl
          · rw [hw, hwb] at hp; simp at hp
        have iht := ih hst (noWSPair_tail hp) (lastNotWS_tail (by simp) hl)
        have hsk : skipWS (b :: t') = b :: t' :=
          iht.2 (by simp [headNotWS, hb])
        constructor
        · show (if isPyWS c then ' ' :: skipWS (b :: t') else _) = _
          rw [if_pos hw, hsk, hc]
        · intro hh
          simp [headNotWS, hw] at hh
    · have iht := ih hst (noWSPair_tail hp)
        (by
          cases t with
          | nil => rfl
          | cons b t' => exact lastNotWS_tail (by simp) hl)
      constructor
      · show (if isPyWS c then ' ' :: skipWS t else c :: collapseWS t) = _
        rw [if_neg hw, iht.1]
      · intro _
        show (if isPyWS c then skipWS t else c :: collapseWS t) = _
        rw [if_neg hw, iht.1]

/-- One normalized line is a fixed point of line normalization. -/
theorem lineNorm_idem (w : List Char) : lineNorm (lineNorm w) = lineNorm w := by
  have hs : ∀ c ∈ lineNorm w, isPyWS c = true → c = ' ' :=
    fun c hc => (collapse_space w).1 c (strip_sub hc)
  have hp : noWSPair (lineNorm w) = true := strip_pair (collapse_pair w).1
  have hh : headNotWS (lineNorm w) = true := strip_headNotWS _
  have hl : lastNotWS (lineNorm w) = true := strip_last _
  show stripWS (collapseWS (lineNorm w)) = lineNorm w
  rw [(collapse_fix hs hp hl).1, strip_fix hh hl]

theorem sp_ne_nil (l : List Char) : splitNl l ≠ [] := by
  induction l with
  | nil => simp [splitNl]
  | cons c t ih =>
    show (if c = '\n' then [] :: splitNl t
      else match splitNl t with
        | [] => [[c]]
        | l :: ls => (c :: l) :: ls) ≠ []
    by_cases hc : c = '\n'
    · rw [if_pos hc]; simp
    · rw [if_neg hc]
      cases he : splitNl t with
      | nil => simp
      | cons x xs => simp

theorem sp_no_nl {l : List Char} : ∀ x ∈ splitNl l, '\n' ∉ x := by
  induction l with
  | nil =>
    intro x hx
    simp only [splitNl, List.mem_singleton] at hx
    simp [hx]
  | cons c t ih =>
    intro x hx
    have hx2 : x ∈ (if c = '\n' then [] :: splitNl t
      else match splitNl t with
        | [] => [[c]]
        | l :: ls => (c :: l) :: ls) := hx
    by_cases hc : c = '\n'
    · rw [if_pos hc] at hx2
      rcases List.mem_cons.1 hx2 with h | h
      · simp [h]
      · exact ih x h
    · rw [if_neg hc] at hx2
      cases he : splitNl t with
      | nil => exact absurd he (sp_ne_nil t)
      | cons y ys =>
        rw [he] at hx2
        rcases List.mem_cons.1 hx2 with h | h
        · subst h
          intro hmem
          rcases List.mem_cons.1 hmem with h2 | h2
          · exact hc h2.symm
          · exact ih y (he ▸ List.mem_cons_self _ _) h2
        · exact ih x (he ▸ List.mem_cons_of_mem _ h)

theorem sp_sub {l : List Char} : ∀ x ∈ splitNl l, ∀ c ∈ x, c ∈ l := by
  induction l with
  | nil =>
    intro x hx c hc
    simp only [splitNl, List.mem_singleton] at hx
    subst hx; simp at hc
  | cons a t ih =>
    intro x hx c hc
    have hx2 : x ∈ (if a = '\n' then [] :: splitNl t
      else match splitNl t with
        | [] => [[a]]
        | l :: ls => (a :: l) :: ls) := hx
    by_cases ha : a = '\n'
    · rw [if_pos ha] at hx2
      rcases List.mem_cons.1 hx2 with h | h
      · subst h; simp at hc
      · exact List.mem_cons_of_mem _ (ih x h c hc)
    · rw [if_neg ha] at hx2
      cases he : splitNl t with
      | nil => exact absurd he (sp_ne_nil t)
      | cons y ys =>
        rw [he] at hx2
        rcases List.mem_cons.1 hx2 with h | h
        · subst h
          rcases List.mem_cons.1 hc with h2 | h2
          · exact h2 ▸ List.mem_cons_self _ _
          · exact List.mem_cons_of_mem _
              (ih y (he ▸ List.mem_cons_self _ _) c h2)
        · exact List.mem_cons_of_mem _
            (ih x (he ▸ List.mem_cons_of_mem _ h) c hc)

theorem sp_single {l : List Char} (h : '\n' ∉ l) : splitNl l = [l] := by
  induction l with
  | nil => rfl
  | cons c t ih =>
    have hc : ¬ c = '\n' := fun hq => h (hq ▸ List.mem_cons_self _ _)
    show (if c = '\n' then [] :: splitNl t
      else match splitNl t with
        | [] => [[c]]
        | l :: ls => (c :: l) :: ls) = [c :: t]
    rw [if_neg hc, ih (fun hm => h (List.mem_cons_of_mem _ hm))]

theorem sp_append {l r : List Char} (h : '\n' ∉ l) :
    splitNl (l ++ '\n' :: r) = l :: splitNl r := by
  induction l with
  | nil =>
    show (if '\n' = '\n' then [] :: splitNl r
      else match splitNl r with
        | [] => [['\n']]
        | l :: ls => ('\n' :: l) :: ls) = [] :: splitNl r
    rw [if_pos rfl]
  | cons c t ih =>
    have hc : ¬ c = '\n' := fun hq => h (hq ▸ List.mem_cons_self _ _)
    have iht := ih (fun hm => h (List.mem_cons_of_mem _ hm))
    show (if c = '\n' then [] :: splitNl (t ++ '\n' :: r)
      else match splitNl (t ++ '\n' :: r) with
        | [] => [[c]]
        | l :: ls => (c :: l) :: ls) = (c :: t) :: splitNl r
    rw [if_neg hc, iht]

theorem sp_join {ls : List (List Char)} (hne : ls ≠ [])
    (h : ∀ x ∈ ls, '\n' ∉ x) : splitNl (joinNl ls) = ls := by
  induction ls with
  | nil => exact absurd rfl hne
  | cons x ls' ih =>
    cases ls' with
    | nil =>
      show splitNl x = [x]
      exact sp_single (h x (List.mem_cons_self _ _))
    | cons y ls'' =>
      show splitNl (x ++ '\n' :: joinNl (y :: ls'')) = x :: y :: ls''
      rw [sp_append (h x (List.mem_cons_self _ _))]
      rw [ih (by simp) (fun z hz => h z (List.mem_cons_of_mem _ hz))]

theorem join_mem {c : Char} {ls : List (List Char)} (h : c ∈ joinNl ls) :
    c = '\n' ∨ ∃ x ∈ ls, c ∈ x := by
  induction ls with
  | nil => simp [joinNl] at h
  | cons x ls' ih =>
    cases ls' with
    | nil => exact Or.inr ⟨x, List.mem_cons_self _ _, h⟩
    | cons y ls'' =>
      have h2 : c ∈ x ++ '\n' :: joinNl (y :: ls'') := h
      rcases List.mem_append.1 h2 with h3 | h3
      · exact Or.inr ⟨x, List.mem_cons_self _ _, h3⟩
      · rcases List.mem_cons.1 h3 with h4 | h4
        · exact Or.inl h4
        · rcases ih h4 with h5 | ⟨z, hz, hcz⟩
          · exact Or.inl h5
          · exact Or.inr ⟨z, List.mem_cons_of_mem _ hz, hcz⟩

theorem joinNl_ne_nil {u : List Char} (hu : u ≠ [])
    (rest : List (List Char)) : joinNl (u :: rest) ≠ [] := by
  cases rest with
  | nil => exact hu
  | cons y ys =>
    show u ++ '\n' :: joinNl (y :: ys) ≠ []
    simp

theorem join_head {u : List Char} (hu : u ≠ [])
    (hh : headNotWS u = true) (rest : List (List Char)) :
    headNotWS (joinNl (u :: rest)) = true := by
  cases rest with
  | nil => exact hh
  | cons y ys =>
    show headNotWS (u ++ '\n' :: joinNl (y :: ys)) = true
    cases u with
    | nil => exact absurd rfl hu
    | cons c t => exact hh

theorem lastNotWS_append {a b : List Char} (hb : b ≠ []) :
    lastNotWS (a ++ b) = lastNotWS b := by
  induction a with
  | nil => rfl
  | cons c a' ih =>
    have hne : a' ++ b ≠ [] := by
      intro hq
      exact hb (List.append_eq_nil.1 hq).2
    show lastNotWS (c :: (a' ++ b)) = lastNotWS b
    cases he : a' ++ b with
    | nil => exact absurd he hne
    | cons d r =>
      have h2 : lastNotWS (c :: d :: r) = lastNotWS (d :: r) := rfl
      rw [h2, ← he, ih]

theorem join_last {ls : List (List Char)} (hne : ls ≠ [])
    (h : ∀ x ∈ ls, x ≠ [] ∧ lastNotWS x = true) :
    lastNotWS (joinNl ls) = true := by
  induction ls with
  | nil => exact absurd rfl hne
  | cons x ls' ih =>
    cases ls' with
    | nil => exact (h x (List.mem_cons_self _ _)).2
    | cons y ls'' =>
      show lastNotWS (x ++ '\n' :: joinNl (y :: ls'')) = true
      have hy := h y (List.mem_cons_of_mem _ (List.mem_cons_self _ _))
      have hjne : joinNl (y :: ls'') ≠ [] := joinNl_ne_nil hy.1 ls''
      rw [lastNotWS_append (by simp)]
      have : lastNotWS ('\n' :: joinNl (y :: ls'')) = lastNotWS (joinNl (y :: ls'')) := by
        cases he : joinNl (y :: ls'') with
        | nil => exact absurd he hjne
        | cons d r => rfl
      rw [this]
      exact ih (by simp) (fun z hz => h z (List.mem_cons_of_mem _ hz))

theorem crlf_mem {c : Char} {l : List Char} (h : c ∈ replCRLF l) :
    c ∈ l ∨ c = '\n' := by
  induction l using replCRLF.induct with
  | case1 => simp [replCRLF] at h
  | case2 d =>
    simp only [replCRLF, List.mem_singleton] at h
    exact Or.inl (by simp [h])
  | case3 a b t hab ih =>
    rw [replCRLF, if_pos hab] at h
    rcases List.mem_cons.1 h with h2 | h2
    · exact Or.inr h2
    · rcases ih h2 with h3 | h3
      · exact Or.inl (by simp [h3])
      · exact Or.inr h3
  | case4 a b t hab ih =>
    rw [replCRLF, if_neg hab] at h
    rcases List.mem_cons.1 h with h2 | h2
    · exact Or.inl (by simp [h2])
    · rcases ih h2 with h3 | h3
      · exact Or.inl (List.mem_cons_of_mem _ h3)
      · exact Or.inr h3

theorem crlf_fix {l : List Char} (h : '\r' ∉ l) : replCRLF l = l := by
  induction l using replCRLF.induct with
  | case1 => rfl
  | case2 d => rfl
  | case3 a b t hab ih =>
    exact absurd (hab.1 ▸ List.mem_cons_self _ _) h
  | case4 a b t hab ih =>
    rw [replCRLF, if_neg hab]
    rw [ih (fun hm => h (List.mem_cons_of_mem _ hm))]

theorem cr_mem {c : Char} {l : List Char} (h : c ∈ replCR l) :
    c ∈ l ∨ c = '\n' := by
  rcases List.mem_map.1 h with ⟨x, hx, hfx⟩
  by_cases hr : x = '\r'
  · rw [hr] at hfx; simp at hfx; exact Or.inr hfx.symm
  · rw [if_neg hr] at hfx
    exact Or.inl (hfx ▸ hx)

theorem cr_no_cr (l : List Char) : '\r' ∉ replCR l := by
  intro h
  rcases List.mem_map.1 h with ⟨x, _, hfx⟩
  by_cases hr : x = '\r'
  · rw [if_pos hr] at hfx; simp at hfx
  · rw [if_neg hr] at hfx; exact hr (hfx ▸ rfl)

theorem cr_fix {l : List Char} (h : '\r' ∉ l) : replCR l = l := by
  unfold replCR
  rw [List.map_congr_left (fun x hx => ?_), List.map_id]
  have hr : ¬ x = '\r' := fun hq => h (hq ▸ hx)
  simp [hr]

theorem rc_mem {c : Char} {l : List Char} (h : c ∈ removeCtrl l) :
    c ∈ l ∧ isCtrl c = false := by
  have h2 := List.mem_filter.1 h
  exact ⟨h2.1, by simpa using h2.2⟩

theorem rc_fix {l : List Char} (h : ∀ c ∈ l, isCtrl c = false) :
    removeCtrl l = l :=
  List.filter_eq_self.2 (fun c hc => by simp [h c hc])

/-- The output of `normalize_string` is nonempty, already stripped, and a
fixed point: normalizing it again returns it unchanged. -/
theorem normalizeString_some {s t : String} (h : normalizeString s = some t) :
    t.data ≠ [] ∧ stripWS t.data = t.data ∧ normalizeString t = some t := by
  unfold normalizeString at h
  by_cases h1 : stripWS s.data = []
  · rw [if_pos h1] at h; simp at h
  · rw [if_neg h1] at h
    set K := ((splitNl (replCR (replCRLF (removeCtrl (stripWS s.data))))).map
      lineNorm).filter (fun l => !l.isEmpty) with hK
    unfold normStep2 at h
    by_cases h2 : K = []
    · rw [if_pos h2] at h; simp at h
    · rw [if_neg h2] at h
      have hlines : ∀ u ∈ K, ∃ w,
          w ∈ splitNl (replCR (replCRLF (removeCtrl (stripWS s.data)))) ∧
            u = lineNorm w ∧ u ≠ [] := by
        intro u hu
        rw [hK] at hu
        have h3 := List.mem_filter.1 hu
        rcases List.mem_map.1 h3.1 with ⟨w, hw, hwu⟩
        refine ⟨w, hw, hwu.symm, ?_⟩
        intro hnil
        rw [hnil] at h3
        simp at h3
      have hprops : ∀ u ∈ K, u ≠ [] ∧ headNotWS u = true ∧ lastNotWS u = true
          ∧ ('\n' ∉ u) ∧ ('\r' ∉ u) ∧ (∀ c ∈ u, isCtrl c = false) := by
        intro u hu
        rcases hlines u hu with ⟨w, hw, hu2, hne⟩
        subst hu2
        refine ⟨hne, strip_headNotWS _, strip_last _, ?_, ?_, ?_⟩
        · intro hmem
          rcases (collapse_mem w).1 _ (strip_sub hmem) with hsp | hin
          · exact absurd hsp (by decide)
          · exact sp_no_nl w hw hin
        · intro hmem
          rcases (collapse_mem w).1 _ (strip_sub hmem) with hsp | hin
          · exact absurd hsp (by decide)
          · exact cr_no_cr _ (sp_sub w hw _ hin)
        · intro c hc
          rcases (collapse_mem w).1 _ (strip_sub hc) with hsp | hin
          · subst hsp; decide
          · have hv4 : c ∈ replCR (replCRLF (removeCtrl (stripWS s.data))) :=
              sp_sub w hw _ hin
            rcases cr_mem hv4 with hv3 | hnl
            · rcases crlf_mem hv3 with hv2 | hnl
              · exact (rc_mem hv2).2
              · subst hnl; decide
            · subst hnl; decide
      have hJne : joinNl K ≠ [] := by
        cases hKc : K with
        | nil => exact absurd hKc h2
        | cons u0 rest =>
          exact joinNl_ne_nil
            ((hprops u0 (hKc ▸ List.mem_cons_self _ _)).1) rest
      have hJhead : headNotWS (joinNl K) = true := by
        cases hKc : K with
        | nil => exact absurd hKc h2
        | cons u0 rest =>
          have hp := hprops u0 (hKc ▸ List.mem_cons_self _ _)
          exact join_head hp.1 hp.2.1 rest
      have hJlast : lastNotWS (joinNl K) = true :=
        join_last h2 (fun x hx => ⟨(hprops x hx).1, (hprops x hx).2.2.1⟩)
      have hJstrip : stripWS (joinNl K) = joinNl K := strip_fix hJhead hJlast
      have hguard : ¬ (joinNl K ≠ [] ∧ stripWS (joinNl K) = []) := by
        intro hg
        exact hJne (hJstrip ▸ hg.2)
      rw [if_neg hguard] at h
      have hts : String.mk (joinNl K) = t := Option.some.inj h
      have htd : t.data = joinNl K := by rw [← hts]
      refine ⟨by rw [htd]; exact hJne, by rw [htd, hJstrip], ?_⟩
      have hrc : removeCtrl (joinNl K) = joinNl K := by
        apply rc_fix
        intro c hc
        rcases join_mem hc with hcn | ⟨x, hx, hcx⟩
        · subst hcn; decide
        · exact (hprops x hx).2.2.2.2.2 c hcx
      have hnocr : '\r' ∉ joinNl K := by
        intro hcr
        rcases join_mem hcr with hcn | ⟨x, hx, hcx⟩
        · exact absurd hcn (by decide)
        · exact (hprops x hx).2.2.2.2.1 hcx
      have hcrlf : replCRLF (joinNl K) = joinNl K := crlf_fix hnocr
      have hcr2 : replCR (joinNl K) = joinNl K := cr_fix hnocr
      have hsp : splitNl (joinNl K) = K :=
        sp_join h2 (fun x hx => (hprops x hx).2.2.2.1)
      have hmapK : K.map lineNorm = K := by
        have hlin : ∀ u ∈ K, lineNorm u = id u := by
          intro u hu
          rcases hlines u hu with ⟨w, _, hu2, _⟩
          rw [hu2]
          exact lineNorm_idem w
        rw [List.map_congr_left hlin, List.map_id]
      have hfiltK : K.filter (fun l => !l.isEmpty) = K := by
        apply List.filter_eq_self.2
        intro u hu
        simpa using (hprops u hu).1
      show normalizeString t = some t
      unfold normalizeString
      rw [htd, hJstrip, if_neg hJne, hrc, hcrlf, hcr2, hsp, hmapK, hfiltK]
      unfold normStep2
      rw [if_neg h2, if_neg hguard, hts]

/-- The per-value action of one default-configuration pass: layer 1 with
no metadata, layer 2, and layer-3 auto-detection (layers 4 and 5 leave
values unchanged under the empty configuration). -/
def stepVal (v : PyVal) : PyVal :=
  l3val [] "" (l2val (coerceValue v none))

/-- The fixed points of `stepVal`: `None`, integers, non-integral floats,
and strings that `normalize_string` fixes and the layer-3 auto-detector
ignores. -/
def StepNormal : PyVal → Prop
  | .null => True
  | .int _ => True
  | .float q => q.den ≠ 1
  | .str t => normalizeString t = some t ∧ digitTest t = false
  | _ => False

theorem normalizeNumeric_str_normal (s : String) :
    StepNormal (normalizeNumeric (.str s)) := by
  simp only [normalizeNumeric]
  by_cases h1 : stripWS s.data = []
  · rw [if_pos h1]; trivial
  · rw [if_neg h1]
    by_cases h2 : (numParen (numClean s)).contains '.'
        ∨ (numParen (numClean s)).contains 'e'
        ∨ (numParen (numClean s)).contains 'E'
    · rw [if_pos h2]
      cases hp : parsePyFloat (String.mk (numParen (numClean s))) with
      | none => trivial
      | some q =>
        show StepNormal (if q.den = 1 then PyVal.int q.num else PyVal.float q)
        by_cases h3 : q.den = 1
        · rw [if_pos h3]; trivial
        · rw [if_neg h3]; exact h3
    · rw [if_neg h2]
      cases hp : parsePyInt (String.mk (numParen (numClean s))) with
      | none => trivial
      | some n => trivial

theorem strPath_normal (r : String) :
    StepNormal (l3val [] "" (l2val (.str r))) := by
  show StepNormal (l3val [] "" (match normalizeString r with
    | none => PyVal.null
    | some t => PyVal.str t))
  cases hns : normalizeString r with
  | none => trivial
  | some t =>
    show StepNormal (if digitTest t = true then normalizeNumeric (.str t)
      else .str t)
    by_cases hd : digitTest t = true
    · rw [if_pos hd]; exact normalizeNumeric_str_normal t
    · rw [if_neg hd]
      exact ⟨(normalizeString_some hns).2.2, by simpa using hd⟩

theorem stepVal_normal (v : PyVal) : StepNormal (stepVal v) := by
  cases v with
  | null => trivial
  | bool b => cases b <;> trivial
  | int n => trivial
  | float q =>
    by_cases h : q.den = 1
    · have h2 : stepVal (.float q) = .int q.num := by
        show l3val [] ""
          (l2val (if q.den = 1 then PyVal.int q.num else .float q)) = _
        rw [if_pos h]
        rfl
      rw [h2]; trivial
    · have h2 : stepVal (.float q) = .float q := by
        show l3val [] ""
          (l2val (if q.den = 1 then PyVal.int q.num else .float q)) = _
        rw [if_neg h]
        rfl
      rw [h2]; exact h
  | str s =>
    have hc : coerceValue (.str s) none =
        if truthy (.str s) = true then
          (if pyStripStr s = "" then PyVal.null else .str (pyStripStr s))
        else PyVal.null := rfl
    show StepNormal (l3val [] "" (l2val (coerceValue (.str s) none)))
    rw [hc]
    by_cases h1 : truthy (.str s) = true
    · rw [if_pos h1]
      by_cases h2 : pyStripStr s = ""
      · rw [if_pos h2]; trivial
      · rw [if_neg h2]; exact strPath_normal _
    · rw [if_neg h1]; trivial
  | list l =>
    have hc : coerceValue (.list l) none =
        if truthy (.list l) = true then
          (if pyStripStr (pyStr (.list l)) = "" then PyVal.null
           else .str (pyStripStr (pyStr (.list l))))
        else PyVal.null := rfl
    show StepNormal (l3val [] "" (l2val (coerceValue (.list l) none)))
    rw [hc]
    by_cases h1 : truthy (.list l) = true
    · rw [if_pos h1]
      by_cases h2 : pyStripStr (pyStr (.list l)) = ""
      · rw [if_pos h2]; trivial
      · rw [if_neg h2]; exact strPath_normal _
    · rw [if_neg h1]; trivial
  | dict d =>
    have hc : coerceValue (.dict d) none =
        if truthy (.dict d) = true then
          (if pyStripStr (pyStr (.dict d)) = "" then PyVal.null
           else .str (pyStripStr (pyStr (.dict d))))
        else PyVal.null := rfl
    show StepNormal (l3val [] "" (l2val (coerceValue (.dict d) none)))
    rw [hc]
    by_cases h1 : truthy (.dict d) = true
    · rw [if_pos h1]
      by_cases h2 : pyStripStr (pyStr (.dict d)) = ""
      · rw [if_pos h2]; trivial
      · rw [if_neg h2]; exact strPath_normal _
    · rw [if_neg h1]; trivial

theorem stepVal_fix {v : PyVal} (h : StepNormal v) : stepVal v = v := by
  cases v with
  | null => rfl
  | bool b => exact h.elim
  | int n => rfl
  | float q =>
    show l3val [] ""
      (l2val (if q.den = 1 then PyVal.int q.num else .float q)) = _
    rw [if_neg h]
    rfl
  | str t =>
    obtain ⟨hns, hdt⟩ := h
    obtain ⟨hne, hstrip, _⟩ := normalizeString_some hns
    have htne : t ≠ "" := by
      intro hq; rw [hq] at hne; exact hne rfl
    have hr : pyStripStr t = t := by
      show String.mk (stripWS t.data) = t
      rw [hstrip]
    show l3val [] "" (l2val (coerceValue (.str t) none)) = .str t
    have hc : coerceValue (.str t) none =
        if truthy (.str t) = true then
          (if pyStripStr t = "" then PyVal.null else .str (pyStripStr t))
        else PyVal.null := rfl
    rw [hc, if_pos (str_truthy_of_ne htne), hr, if_neg htne]
    show l3val [] "" (match normalizeString t with
      | none => PyVal.null
      | some u => PyVal.str u) = .str t
    rw [hns]
    show (if digitTest t = true then normalizeNumeric (.str t)
      else .str t) = .str t
    rw [if_neg (by simp [hdt])]
  | list l => exact h.elim
  | dict d => exact h.elim

/-- Rebuild an association list by repeated Python dict assignment. -/
def dictFoldAux (acc : List (String × PyVal)) :
    List (String × PyVal) → List (String × PyVal)
  | [] => acc
  | kv :: t => dictFoldAux (dictSet acc kv.1 kv.2) t

theorem mapRowAux_empty (l : List (String × PyVal)) :
    ∀ acc, mapRowAux [] [] [] acc l = dictFoldAux acc l := by
  induction l with
  | nil => intro acc; rfl
  | cons kv t ih =>
    intro acc
    show mapRowAux [] [] []
      (dictSet acc kv.1 (if kv.2 = PyVal.null then kv.2 else kv.2)) t
        = dictFoldAux (dictSet acc kv.1 kv.2) t
    rw [ite_self]
    exact ih _

/-- With the empty configuration, one pass of `normalize_row` is the
per-value step applied to each entry, rebuilt by dict assignment. -/
theorem normalizeRow_empty (parseDT : String → Option String)
    (row : List (String × PyVal)) :
    normalizeRow parseDT emptyNormConfig row
      = dictFoldAux [] (row.map (fun kv => (kv.1, stepVal kv.2))) := by
  simp only [normalizeRow, mapRow, List.map_map]
  exact mapRowAux_empty _ _

theorem dictSet_keys {α : Type} (l : List (String × α)) (k : String) (v : α) :
    (dictSet l k v).map Prod.fst =
      if k ∈ l.map Prod.fst then l.map Prod.fst
      else l.map Prod.fst ++ [k] := by
  induction l with
  | nil => simp [dictSet]
  | cons kv t ih =>
    show ((if kv.1 = k then (kv.1, v) :: t else kv :: dictSet t k v)).map
        Prod.fst = _
    by_cases hk : kv.1 = k
    · rw [if_pos hk]
      rw [if_pos (by simp [hk])]
      rfl
    · rw [if_neg hk]
      show kv.1 :: (dictSet t k v).map Prod.fst = _
      rw [ih]
      by_cases hm : k ∈ t.map Prod.fst
      · rw [if_pos hm, if_pos (by simp [hm])]
        rfl
      · rw [if_neg hm,
          if_neg (by simp [hm]; exact fun hq => hk hq.symm)]
        rfl

theorem dictFold_keys_nodup : ∀ (l acc : List (String × PyVal)),
    (acc.map Prod.fst).Nodup → ((dictFoldAux acc l).map Prod.fst).Nodup := by
  intro l
  induction l with
  | nil => intro acc h; exact h
  | cons kv t ih =>
    intro acc h
    apply ih
    rw [dictSet_keys]
    by_cases hm : kv.1 ∈ acc.map Prod.fst
    · rw [if_pos hm]; exact h
    · rw [if_neg hm]
      refine List.Nodup.append h (List.nodup_singleton _) ?_
      intro x hx hy
      rw [List.mem_singleton] at hy
      exact hm (hy ▸ hx)

theorem dictSet_notMem {l : List (String × PyVal)} {k : String} (v : PyVal)
    (h : k ∉ l.map Prod.fst) : dictSet l k v = l ++ [(k, v)] := by
  induction l with
  | nil => rfl
  | cons kv t ih =>
    have hk : ¬ kv.1 = k := by
      intro hq; exact h (by simp [hq])
    show (if kv.1 = k then (kv.1, v) :: t else kv :: dictSet t k v) = _
    rw [if_neg hk, ih (fun hm => h (List.mem_cons_of_mem _ hm))]
    rfl

theorem dictFold_id : ∀ (l acc : List (String × PyVal)),
    (l.map Prod.fst).Nodup →
    (∀ k ∈ l.map Prod.fst, k ∉ acc.map Prod.fst) →
    dictFoldAux acc l = acc ++ l := by
  intro l
  induction l with
  | nil => intro acc _ _; simp [dictFoldAux]
  | cons kv t ih =>
    intro acc hnd hdis
    show dictFoldAux (dictSet acc kv.1 kv.2) t = _
    rw [dictSet_notMem kv.2 (hdis kv.1 (by simp))]
    have hnd' : (t.map Prod.fst).Nodup := (List.nodup_cons.1 (by simpa using hnd)).2
    have hhead : kv.1 ∉ t.map Prod.fst := (List.nodup_cons.1 (by simpa using hnd)).1
    rw [ih (acc ++ [(kv.1, kv.2)]) hnd' ?_]
    · simp
    · intro k hk
      rw [List.map_append, List.mem_append]
      rintro (hka | hks)
      · exact hdis k (List.mem_cons_of_mem _ hk) hka
      · simp only [List.map_cons, List.map_nil, List.mem_singleton] at hks
        exact hhead (hks ▸ hk)

theorem dictSet_vals {l : List (String × PyVal)} {k : String} {v : PyVal}
    {kv : String × PyVal} (h : kv ∈ dictSet l k v) :
    kv.2 = v ∨ kv.2 ∈ l.map Prod.snd := by
  induction l with
  | nil =>
    simp only [dictSet, List.mem_singleton] at h
    exact Or.inl (by rw [h])
  | cons x t ih =>
    have h2 : kv ∈ (if x.1 = k then (x.1, v) :: t else x :: dictSet t k v) := h
    by_cases hx : x.1 = k
    · rw [if_pos hx] at h2
      rcases List.mem_cons.1 h2 with h3 | h3
      · exact Or.inl (by rw [h3])
      · exact Or.inr (List.mem_cons_of_mem _ (List.mem_map_of_mem _ h3))
    · rw [if_neg hx] at h2
      rcases List.mem_cons.1 h2 with h3 | h3
      · exact Or.inr (by rw [h3]; exact List.mem_cons_self _ _)
      · rcases ih h3 with h4 | h4
        · exact Or.inl h4
        · exact Or.inr (List.mem_cons_of_mem _ h4)

theorem dictSet_vals2 {l : List (String × PyVal)} {k : String} {v : PyVal}
    {y : PyVal} (h : y ∈ (dictSet l k v).map Prod.snd) :
    y = v ∨ y ∈ l.map Prod.snd := by
  rcases List.mem_map.1 h with ⟨p, hp, hpy⟩
  rcases dictSet_vals hp with h2 | h2
  · exact Or.inl (hpy ▸ h2)
  · exact Or.inr (hpy ▸ h2)

theorem dictFold_vals : ∀ (l acc : List (String × PyVal))
    (kv : String × PyVal), kv ∈ dictFoldAux acc l →
    kv.2 ∈ acc.map Prod.snd ∨ kv.2 ∈ l.map Prod.snd := by
  intro l
  induction l with
  | nil => intro acc kv h; exact Or.inl (List.mem_map_of_mem _ h)
  | cons x t ih =>
    intro acc kv h
    rcases ih (dictSet acc x.1 x.2) kv h with h2 | h2
    · rcases dictSet_vals2 h2 with h3 | h3
      · exact Or.inr (by rw [h3]; exact List.mem_cons_self _ _)
      · exact Or.inl h3
    · exact Or.inr (List.mem_cons_of_mem _ h2)

theorem map_step_self {l : List (String × PyVal)}
    (h : ∀ kv ∈ l, stepVal kv.2 = kv.2) :
    l.map (fun kv => (kv.1, stepVal kv.2)) = l := by
  induction l with
  | nil => rfl
  | cons kv t ih =>
    show (kv.1, stepVal kv.2) :: t.map _ = kv :: t
    rw [h kv (List.mem_cons_self _ _),
      ih (fun x hx => h x (List.mem_cons_of_mem _ hx))]

/-- A configuration whose only content is the mapping chain `a → b`,
`b → c`. -/
def chainConfig : NormConfig :=
  ⟨[⟨some "a", some "b", none, none, false⟩,
    ⟨some "b", some "c", none, none, false⟩], [], [], [], []⟩

/-- C9: counterexample.  Under the field-mapping configuration `a → b`,
`b → c`, normalizing the row `\x7ba: "x"\x7d` once yields `\x7bb: "x"\x7d`
but normalizing it twice yields `\x7bc: "x"\x7d`: the mapping layer renames
again on the second pass, so the pipeline is not idempotent for every
configuration. -/
theorem claim_C9_normalize_idempotent_counterexample :
    normalizeRow (fun _ => none) chainConfig [("a", PyVal.str "x")]
      = [("b", PyVal.str "x")]
    ∧ normalizeRow (fun _ => none) chainConfig
        (normalizeRow (fun _ => none) chainConfig [("a", PyVal.str "x")])
      = [("c", PyVal.str "x")]
    ∧ normalizeRow (fun _ => none) chainConfig
        (normalizeRow (fun _ => none) chainConfig [("a", PyVal.str "x")])
      ≠ normalizeRow (fun _ => none) chainConfig [("a", PyVal.str "x")] :=
  ⟨rfl, rfl, by decide⟩

/-- C9 (amended): under the engine's default configuration — no field
mappings, no Oracle metadata, no numeric/datetime/date field sets, which
is `NormalizationEngine()` as built by `normalize_connector_data` — the
5-layer pipeline is idempotent on every row and for every datetime
parser: `normalize_row(normalize_row(R)) = normalize_row(R)`. -/
theorem claim_C9_normalize_idempotent_amended
    (parseDT : String → Option String) (row : List (String × PyVal)) :
    normalizeRow parseDT emptyNormConfig
        (normalizeRow parseDT emptyNormConfig row)
      = normalizeRow parseDT emptyNormConfig row := by
  rw [normalizeRow_empty, normalizeRow_empty]
  set s := dictFoldAux [] (row.map (fun kv => (kv.1, stepVal kv.2))) with hs
  have hvals : ∀ kv ∈ s, stepVal kv.2 = kv.2 := by
    intro kv hkv
    have h2 := dictFold_vals _ _ kv (hs ▸ hkv)
    rcases h2 with h2 | h2
    · simp at h2
    · rw [List.map_map] at h2
      rcases List.mem_map.1 h2 with ⟨kv0, _, hkv0⟩
      rw [← hkv0]
      exact stepVal_fix (stepVal_normal _)
  rw [map_step_self hvals]
  have hnd : (s.map Prod.fst).Nodup := dictFold_keys_nodup _ [] (by simp)
  have h3 := dictFold_id s [] hnd (by simp)
  simpa using h3

end SyncFlow
